import Mathlib

/-!
# Verification of the sopel/willie rule-dispatch core

This development gives a shallow embedding of the rule-dispatch core of the
willie/sopel IRC bot framework and proves properties about it.

The dispatch engine itself (`Sopel.dispatch`, `Sopel.call_rule`, `Sopel.call`,
`Sopel.bind_trigger`, `Sopel.bind_rule`, `Sopel._is_pretrigger_blocked`) is
embedded from `sopel/bot.py`.  The rule-matching module `sopel.plugins.rules`
(classes `Rule`, `Command`, `NickCommand`, `ActionCommand`, `Manager`) is not
part of the available sources — only its test-suite and its caller `bot.py`
are — so its definitions below are modelled from the specification, as their
doc comments state.

Conventions of the embedding:

* Python compiled regular expressions attached to generic rules are modelled
  as abstract matching functions `List Char → Option MatchRes`; the
  synthesized command/nick-command/action-command patterns are modelled
  concretely by recursive parsers mirroring the command grammar.
* Python text is `List Char`; identifiers (nicks, labels, plugin names) are
  `String`.
* Machine time is modelled as `Int` seconds.
* Exceptions are modelled by explicit outcome datatypes; a raised exception
  is a constructor, never an unprovable state.
-/

namespace SopelSpec

/-! ## Text utilities

Whitespace and tokenization helpers used by the command parameter grammar
(the Python side uses `\s` / `\S` character classes). -/

/-- Python `\s` whitespace class (the characters relevant to IRC lines). -/
def isWS (c : Char) : Bool :=
  c == ' ' || c == '\t' || c == '\n' || c == '\r' || c == '\x0b' || c == '\x0c'

theorem dropWhile_length_le (p : Char → Bool) (l : List Char) :
    (l.dropWhile p).length ≤ l.length := by
  induction l with
  | nil => simp [List.dropWhile]
  | cons c cs ih =>
    simp only [List.dropWhile]
    cases p c
    · simp
    · simp only [List.length_cons]; omega

/-- Split a character list into its maximal non-whitespace tokens, in order
(the whitespace-delimited words of the text). -/
def wordsOf (cs : List Char) : List (List Char) :=
  match cs with
  | [] => []
  | c :: rest =>
    if isWS c then
      wordsOf rest
    else
      (c :: rest).takeWhile (fun x => !isWS x)
        :: wordsOf (rest.dropWhile (fun x => !isWS x))
termination_by cs.length
decreasing_by
  · simp only [List.length_cons]; omega
  · have := dropWhile_length_le (fun x => !isWS x) rest
    simp only [List.length_cons]; omega

/-- Lower-case a character list (ASCII case folding, modelling Python's
case-insensitive matching of the command word). -/
def lowerChars (cs : List Char) : List Char := cs.map Char.toLower

/-- Case-insensitive equality of two character lists. -/
def ciEq (a b : List Char) : Bool := lowerChars a == lowerChars b

/-- Does `text` start with `pat`, compared case-insensitively? -/
def startsWithCI (text pat : List Char) : Bool :=
  ciEq (text.take pat.length) pat

/-- Does `text` start with `pat`, compared exactly? -/
def startsWithEx (text pat : List Char) : Bool :=
  text.take pat.length == pat

/-! ## Match results and matchers -/

/-- Result of a successful pattern match: the overall matched text
(Python `match.group(0)`) and the numbered capture groups
(`groups.get? 0` is Python `match.group(1)`, and so on; `none` is a group
that did not participate in the match). -/
structure MatchRes where
  group0 : List Char
  groups : List (Option (List Char))
deriving DecidableEq

/-- A compiled pattern, modelled as an anchored matching function:
Python's `compiled_regex.match(text)`. -/
abbrev Matcher : Type := List Char → Option MatchRes

/-! ## The command parameter grammar

Modelled from the spec: the Pattern Compiler's optional parameter-capturing
tail shared by `Command`, `NickCommand` and `ActionCommand` — "followed by an
optional parameter-capturing tail that exposes: full remainder (group 2) and
up to four whitespace-delimited tokens (groups 3–6)".  The parsers below
mirror the regex tail
`(?:\s+((?:(\S+))?(?:\s+(\S+))?(?:\s+(\S+))?(?:\s+(\S+))?.*))?$`:
a sequential scan that takes the remainder after the first whitespace run as
group 2 and then captures up to four greedy `\S+` tokens. -/

/-- The five capture groups produced by the parameter tail (groups 2–6). -/
structure TailGroups where
  g2 : Option (List Char)
  g3 : Option (List Char)
  g4 : Option (List Char)
  g5 : Option (List Char)
  g6 : Option (List Char)
deriving DecidableEq

/-- Scan one `(?:(\S+))?` at the current position: a token if and only if the
text starts with a non-whitespace character; returns the token (if any) and
the rest of the text. -/
def scanTok (cs : List Char) : Option (List Char) × List Char :=
  match cs with
  | [] => (none, [])
  | c :: rest =>
    if isWS c then (none, c :: rest)
    else ((c :: rest).takeWhile (fun x => !isWS x),
          (c :: rest).dropWhile (fun x => !isWS x))

/-- Scan one `(?:\s+(\S+))?` at the current position: a token if and only if
the text starts with at least one whitespace character followed by at least
one non-whitespace character; on failure the position is unchanged. -/
def scanWSTok (cs : List Char) : Option (List Char) × List Char :=
  match cs with
  | [] => (none, [])
  | c :: rest =>
    if isWS c then
      match scanTok ((c :: rest).dropWhile isWS) with
      | (some t, r) => (some t, r)
      | (none, _) => (none, c :: rest)
    else (none, c :: rest)

/-- Scan the parameter area `r` (the remainder after the separating
whitespace): group 2 is `r` itself, groups 3–6 are the four sequential
token scans. -/
def tailScan (r : List Char) : TailGroups :=
  ⟨some r,
    (scanTok r).1,
    (scanWSTok (scanTok r).2).1,
    (scanWSTok (scanWSTok (scanTok r).2).2).1,
    (scanWSTok (scanWSTok (scanWSTok (scanTok r).2).2).2).1⟩

/-- Parse the parameter tail of a command line (everything after the command
word).  `none` means the overall pattern does not match (the command word is
followed by a non-whitespace character); `some` carries groups 2–6.  A tail
with no parameters (empty, or whitespace only) carries no groups; otherwise
group 2 is the full remainder after the separating whitespace run and
groups 3–6 are scanned sequentially. -/
def parseTail (tail : List Char) : Option TailGroups :=
  match tail with
  | [] => some ⟨none, none, none, none, none⟩
  | c :: rest =>
    if isWS c then
      if (List.dropWhile isWS (c :: rest)).isEmpty then
        some ⟨none, none, none, none, none⟩
      else
        some (tailScan (List.dropWhile isWS (c :: rest)))
    else none

/-- Try the command-name alternation `name|alias1|alias2|…` at the start of
`rest`, case-insensitively, keeping the first alternative for which the
whole pattern (name followed by a valid parameter tail) matches — this is
the backtracking behaviour of the regex alternation.  Returns the matched
command word as written in the input, and the tail groups. -/
def tryCommandName (cands : List (List Char)) (rest : List Char) :
    Option (List Char × TailGroups) :=
  match cands with
  | [] => none
  | c :: cs =>
    if startsWithCI rest c then
      match parseTail (rest.drop c.length) with
      | some g => some (rest.take c.length, g)
      | none => tryCommandName cs rest
    else tryCommandName cs rest

/-- Assemble the fixed group layout of a command match: group 1 is the
command word, groups 2–6 come from the parameter tail. -/
def commandGroups (w : List Char) (g : TailGroups) : List (Option (List Char)) :=
  [some w, g.g2, g.g3, g.g4, g.g5, g.g6]

/-- Modelled from the spec: the Pattern Compiler's `Command` matcher — "a
single pattern anchored at the configured command prefix …, followed by the
command name or any of its aliases (alternated), followed by an optional
parameter-capturing tail …  Matching is case-insensitive on the command word
only."  The prefix regex fragment is modelled as a literal character string;
group 0 is the whole line (the pattern ends in `.*$`). -/
def commandMatcher (pfx : List Char) (name : List Char)
    (aliases : List (List Char)) : Matcher :=
  fun text =>
    if startsWithEx text pfx then
      match tryCommandName (name :: aliases) (text.drop pfx.length) with
      | some (w, g) => some ⟨text, commandGroups w g⟩
      | none => none
    else none

/-- Strip the optional `:` or `,` separator after the nickname
(the regex `[:,]?`). -/
def stripSep (cs : List Char) : List Char :=
  match cs with
  | c :: rest => if c == ':' || c == ',' then rest else c :: rest
  | [] => []

/-- After a nickname match: strip the optional `:`/`,` separator, require
at least one whitespace character, and return the position where the
command word must start (after the whitespace run); `none` when the
required whitespace is missing. -/
def nickCmdBase (n : List Char) (text : List Char) : Option (List Char) :=
  match stripSep (text.drop n.length) with
  | c :: rest => if isWS c then some ((c :: rest).dropWhile isWS) else none
  | [] => none

/-- Try each nickname alternative in order: the line must start with the
nickname, followed by an optional `:` or `,`, then at least one whitespace
character, then the command grammar.  Backtracks across nickname
alternatives like the regex alternation. -/
def tryNickNames (nicks : List (List Char)) (cands : List (List Char))
    (text : List Char) : Option (List Char × TailGroups) :=
  match nicks with
  | [] => none
  | n :: ns =>
    if startsWithCI text n then
      match nickCmdBase n text with
      | some base =>
        match tryCommandName cands base with
        | some r => some r
        | none => tryNickNames ns cands text
      | none => tryNickNames ns cands text
    else tryNickNames ns cands text

/-- Modelled from the spec: the Pattern Compiler's `NickCommand` matcher —
"a pattern requiring the line to start with the bot's nickname or one of its
configured nickname aliases, followed by `:` or `,` or whitespace, then the
same command + parameter grammar as Command."  Nicknames are matched
case-insensitively (IRC nicknames are case-insensitive). -/
def nickCommandMatcher (nick : List Char) (nickAliases : List (List Char))
    (name : List Char) (aliases : List (List Char)) : Matcher :=
  fun text =>
    match tryNickNames (nick :: nickAliases) (name :: aliases) text with
    | some (w, g) => some ⟨text, commandGroups w g⟩
    | none => none

/-- Modelled from the spec: the Pattern Compiler's `ActionCommand` matcher —
"the same command + parameter grammar is used"; the pattern is anchored at
the start of the (CTCP-stripped) text with no prefix.  The intent gate is
not part of the matcher: "the compiler does not itself inspect intent —
that is the Rule's `match_intent` responsibility". -/
def actionCommandMatcher (name : List Char) (aliases : List (List Char)) :
    Matcher :=
  fun text =>
    match tryCommandName (name :: aliases) text with
    | some (w, g) => some ⟨text, commandGroups w g⟩
    | none => none

/-! ## Events, triggers and handlers -/

/-- Modelled from the spec: the Event / `PreTrigger` — "immutable snapshot
of one parsed incoming line — source nick, source host, destination …, raw
text, event verb …, intent/CTCP tag if any, arrival timestamp, protocol
tags".  `senderIsNick` records whether the destination is a nick (a private
message) rather than a channel. -/
structure PreTrigger where
  nick : String
  host : String
  sender : String
  senderIsNick : Bool
  text : List Char
  event : String
  intent : Option String
  time : Int
  tags : List String

/-- Modelled from the spec: a `Trigger` — "an Event enriched with a specific
Rule's match result and resolved identity facts (is the sender an
admin/owner, is this a private message, account name if known)".  The match
groups are carried separately by the dispatch entries, so only the identity
facts needed by gating and execution appear here. -/
structure Trig where
  nick : String
  sender : String
  isPrivmsg : Bool
  admin : Bool
  account : Option String

/-- Outcome of invoking a plugin handler.  `value true` is the
"ignore rate limit" sentinel return (`IGNORE_RATE_LIMIT`); `value false` is
any other return value (including none); `raised` is an exception escaping
the handler; `kbInterrupt` is an explicit keyboard-interrupt request. -/
inductive HandlerOutcome where
  | value (noLimit : Bool)
  | raised
  | kbInterrupt
deriving DecidableEq

/-- A plugin handler, modelled as a function from the trigger to its
outcome (the output side-effects of a handler are irrelevant to the
properties proved here). -/
abbrev Handler : Type := Trig → HandlerOutcome

/-- Modelled from the spec: rule priority — "an enum-like ordering
(low/medium/high)". -/
inductive Priority where
  | low
  | medium
  | high
deriving DecidableEq

/-- The numeric sort key of a priority (mirrors the rule's
`priority_scale`); only the relative order matters. -/
def Priority.scale : Priority → Nat
  | .low => 10
  | .medium => 20
  | .high => 30

/-- Which specialization a registered rule is; `match_intent` dispatches on
this (Python subclassing). -/
inductive RuleKind where
  | generic
  | command
  | nickCommand
  | actionCommand
  | urlCallback
deriving DecidableEq

/-- Modelled from the spec: a `Rule` — "plugin name, optional label …, one
or more compiled matchers, applicable event-verb set (default: just the
normal message verb), optional intent filter, echo-allowed flag, threaded
flag (default true), unblockable flag, output prefix, three rate-limit
windows (per-user, per-channel, global) …, and reference to the handler",
together with the per-rule rate-limit ledger — "per-rule mapping from a
limiting key (user identifier, channel identifier, or a global sentinel) to
the timestamp of last allowed execution".  Intent filters are modelled as
abstract predicates (compiled regexes in Python).  `cmdName`/`aliases` are
the command name data of the Command specializations. -/
structure Rule where
  plugin : Option String
  label : Option String
  handlerName : Option String
  kind : RuleKind
  matchers : List Matcher
  events : List String
  intents : List (String → Bool)
  allowEcho : Bool
  threaded : Bool
  unblockable : Bool
  priority : Priority
  outPfx : String
  rateLimit : Int
  channelRateLimit : Int
  globalRateLimit : Int
  handler : Option Handler
  userLedger : List (String × Int)
  channelLedger : List (String × Int)
  globalLedger : Option Int
  cmdName : Option String
  aliases : List String

/-- A rule with the default metadata of the spec's data model: events
default to the normal message verb, threaded defaults to true, medium
priority, empty ledgers. -/
def defaultRule : Rule where
  plugin := none
  label := none
  handlerName := none
  kind := .generic
  matchers := []
  events := ["PRIVMSG"]
  intents := []
  allowEcho := false
  threaded := true
  unblockable := false
  priority := .medium
  outPfx := ""
  rateLimit := 0
  channelRateLimit := 0
  globalRateLimit := 0
  handler := none
  userLedger := []
  channelLedger := []
  globalLedger := none
  cmdName := none
  aliases := []

/-- Modelled from the spec: `get_rule_label` — "returns the explicitly
declared label; if absent, falls back to the handler's own identifying
name; if neither is available, fails" (`none` here models the failure). -/
def Rule.getRuleLabel (r : Rule) : Option String :=
  r.label <|> r.handlerName

/-- Modelled from the spec: `match_event` — "verb membership test; a rule
with no explicitly declared events matches only the default message verb"
(the default is installed by construction in `defaultRule`). -/
def Rule.matchEvent (r : Rule) (event : String) : Bool :=
  r.events.contains event

/-- Modelled from the spec: `match_intent` — "true if no intent filter is
declared (matches everything, including None/no-intent) or if the intent
matches one of the declared filter patterns.  ActionCommand overrides this:
it matches only the action intent and no other filters are consulted." -/
def Rule.matchIntent (r : Rule) (intent : Option String) : Bool :=
  match r.kind with
  | .actionCommand => intent == some "ACTION"
  | _ =>
    r.intents.isEmpty ||
      (match intent with
       | none => false
       | some s => r.intents.any (fun f => f s))

/-- Is the event an echo of the bot's own message?  (The bot's nickname,
compared case-insensitively, on a message verb.) -/
def isEchoEvent (botNick : String) (pre : PreTrigger) : Bool :=
  (lowerChars pre.nick.toList == lowerChars botNick.toList) &&
    (pre.event == "PRIVMSG" || pre.event == "NOTICE")

/-- Try every compiled matcher of a rule against the text, in declaration
order, keeping every match ("**all** matching compiled patterns within one
rule produce a result …, not just the first").  Each match is tagged with
the index of the pattern that produced it, modelling the distinct Python
match objects. -/
def tryPatterns (i : Nat) (ps : List Matcher) (text : List Char) :
    List (Nat × MatchRes) :=
  match ps with
  | [] => []
  | p :: rest =>
    match p text with
    | some m => (i, m) :: tryPatterns (i + 1) rest text
    | none => tryPatterns (i + 1) rest text

/-- The event/intent/echo gates of `Rule.match`: the rule participates in
matching only when the event verb is applicable, the intent passes
`match_intent`, and the event is not a disallowed echo of the bot's own
message. -/
def Rule.gatesPass (r : Rule) (botNick : String) (pre : PreTrigger) : Bool :=
  r.matchEvent pre.event &&
    r.matchIntent pre.intent &&
    !(isEchoEvent botNick pre && !r.allowEcho)

/-- Modelled from the spec: `Rule.match(event)` — "for each compiled
matcher, attempt to match the event's text; skip entirely if the event's
verb is not in the rule's applicable event set, or if the event's intent
fails `match_intent`, or if the event originates from the bot itself and
`allow_echo` is false." -/
def Rule.match (r : Rule) (botNick : String) (pre : PreTrigger) :
    List (Nat × MatchRes) :=
  if r.gatesPass botNick pre then
    tryPatterns 0 r.matchers pre.text
  else
    []

/-! ## Rate limiting and execution -/

/-- Look up a ledger key (latest entry wins). -/
def ledgerGet (l : List (String × Int)) (k : String) : Option Int :=
  (l.find? (fun e => e.1 == k)).map (fun e => e.2)

/-- Record a ledger timestamp (newer entries supersede older ones). -/
def ledgerSet (l : List (String × Int)) (k : String) (t : Int) :
    List (String × Int) :=
  (k, t) :: l

/-- Modelled from the spec: `is_rate_limited(user)` — "compare current time
to the ledger's last-recorded timestamp for that key against the rule's
configured window; a window of zero or less means never rate-limited." -/
def Rule.isRateLimited (r : Rule) (nick : String) (now : Int) : Bool :=
  r.rateLimit > 0 &&
    (match ledgerGet r.userLedger nick with
     | none => false
     | some t => now - t < r.rateLimit)

/-- Modelled from the spec: `is_channel_rate_limited(channel)`. -/
def Rule.isChannelRateLimited (r : Rule) (channel : String) (now : Int) : Bool :=
  r.channelRateLimit > 0 &&
    (match ledgerGet r.channelLedger channel with
     | none => false
     | some t => now - t < r.channelRateLimit)

/-- Modelled from the spec: `is_global_rate_limited()`. -/
def Rule.isGlobalRateLimited (r : Rule) (now : Int) : Bool :=
  r.globalRateLimit > 0 &&
    (match r.globalLedger with
     | none => false
     | some t => now - t < r.globalRateLimit)

/-- Update every applicable ledger after an allowed execution: "all other
return values (including none) update the ledger for every key type
applicable (user, channel if not a private message, global)". -/
def Rule.updateLedgers (r : Rule) (tr : Trig) (now : Int) : Rule :=
  { r with
    userLedger := ledgerSet r.userLedger tr.nick now
    channelLedger :=
      if tr.isPrivmsg then r.channelLedger
      else ledgerSet r.channelLedger tr.sender now
    globalLedger := some now }

/-- Outcome of `Rule.execute`: the returned `Rule` carries the
(possibly updated) ledger state.  `configError` models the `RuntimeError`
raised for a rule with no handler bound; `excRaised` propagates a handler
exception (before any ledger update); `interrupted` propagates a
keyboard-interrupt request. -/
inductive ExecOutcome where
  | ok (r : Rule)
  | configError
  | excRaised (r : Rule)
  | interrupted (r : Rule)

/-- Modelled from the spec: `execute(context, trigger)` — "binds the
execution context to this rule and this trigger, then invokes the handler.
Fails with a configuration error if the rule has no handler bound.  If
handler execution returns a special 'ignore rate limit' sentinel, the
ledger must NOT be updated for that invocation — all other return values
(including none) update the ledger for every key type applicable."  The
ledger update follows the handler invocation, so a handler exception leaves
the ledger untouched. -/
def Rule.execute (r : Rule) (tr : Trig) (now : Int) : ExecOutcome :=
  match r.handler with
  | none => .configError
  | some h =>
    match h tr with
    | .raised => .excRaised r
    | .kbInterrupt => .interrupted r
    | .value noLimit =>
      if noLimit then .ok r else .ok (r.updateLedgers tr now)

/-! ## Rule specializations -/

/-- Modelled from the spec: a `Command` — "Rule specializations whose
matcher is synthesized from a command name, an optional list of aliases";
the label of a command is its name. -/
def mkCommand (name : String) (pfx : String) (aliases : List String)
    (plugin : Option String) : Rule :=
  { defaultRule with
    plugin := plugin
    label := some name
    kind := .command
    cmdName := some name
    aliases := aliases
    matchers := [commandMatcher pfx.toList name.toList (aliases.map String.toList)] }

/-- Modelled from the spec: a `NickCommand` — synthesized from "a command
name, an optional list of aliases, and … the bot's nickname plus configured
nickname aliases". -/
def mkNickCommand (nick : String) (name : String) (nickAliases : List String)
    (aliases : List String) (plugin : Option String) : Rule :=
  { defaultRule with
    plugin := plugin
    label := some name
    kind := .nickCommand
    cmdName := some name
    aliases := aliases
    matchers := [nickCommandMatcher nick.toList (nickAliases.map String.toList)
      name.toList (aliases.map String.toList)] }

/-- Modelled from the spec: an `ActionCommand` — the command grammar with no
prefix, gated on the action intent by its `match_intent` override.  The
`intents` argument records declared intent filters, which the override
never consults. -/
def mkActionCommand (name : String) (aliases : List String)
    (intents : List (String → Bool)) (plugin : Option String) : Rule :=
  { defaultRule with
    plugin := plugin
    label := some name
    kind := .actionCommand
    cmdName := some name
    aliases := aliases
    intents := intents
    matchers := [actionCommandMatcher name.toList (aliases.map String.toList)] }

/-! ## The Rule Registry (Manager)

Modelled from the spec: the Manager "owns all registered rules/commands,
indexed for lookup and iteration", with "internally separated collections
(generic rules, commands, nick-commands, action-commands, URL callbacks)
… preserving insertion order", and `get_triggered_rules` iterating the
categories "in a fixed category order; within a category … in registration
order", sorted by priority as "a secondary sort that is stable with respect
to this base order". -/

structure Manager where
  rules : List Rule
  commands : List Rule
  nickCommands : List Rule
  actionCommands : List Rule
  urlCallbacks : List Rule

/-- The empty registry. -/
def Manager.empty : Manager := ⟨[], [], [], [], []⟩

/-- Modelled from the spec: `register(rule)` appends to the generic-rule
collection, preserving insertion order. -/
def Manager.register (m : Manager) (r : Rule) : Manager :=
  { m with rules := m.rules ++ [r] }

/-- Modelled from the spec: `register_command`. -/
def Manager.registerCommand (m : Manager) (r : Rule) : Manager :=
  { m with commands := m.commands ++ [r] }

/-- Modelled from the spec: `register_nick_command`. -/
def Manager.registerNickCommand (m : Manager) (r : Rule) : Manager :=
  { m with nickCommands := m.nickCommands ++ [r] }

/-- Modelled from the spec: `register_action_command`. -/
def Manager.registerActionCommand (m : Manager) (r : Rule) : Manager :=
  { m with actionCommands := m.actionCommands ++ [r] }

/-- Modelled from the spec: `register_url_callback`. -/
def Manager.registerUrlCallback (m : Manager) (r : Rule) : Manager :=
  { m with urlCallbacks := m.urlCallbacks ++ [r] }

/-- Every registered rule, in the fixed category order used by
`get_triggered_rules`: generic rules, commands, nick-commands,
action-commands, URL callbacks. -/
def Manager.allRules (m : Manager) : List Rule :=
  m.rules ++ m.commands ++ m.nickCommands ++ m.actionCommands ++ m.urlCallbacks

/-- Modelled from the spec: `unregister_plugin(name)` — "removes every
rule/command/URL-callback owned by that plugin name". -/
def Manager.unregisterPlugin (m : Manager) (name : String) : Manager where
  rules := m.rules.filter (fun r => !(r.plugin == some name))
  commands := m.commands.filter (fun r => !(r.plugin == some name))
  nickCommands := m.nickCommands.filter (fun r => !(r.plugin == some name))
  actionCommands := m.actionCommands.filter (fun r => !(r.plugin == some name))
  urlCallbacks := m.urlCallbacks.filter (fun r => !(r.plugin == some name))

/-- Does the optional plugin filter accept this rule? -/
def pluginOk (filterPlugin : Option String) (r : Rule) : Bool :=
  match filterPlugin with
  | none => true
  | some p => r.plugin == some p

/-- Modelled from the spec: `has_rule` — existence check on the generic-rule
collection by label, with an optional plugin-name filter. -/
def Manager.hasRule (m : Manager) (label : String)
    (filterPlugin : Option String) : Bool :=
  m.rules.any (fun r => r.getRuleLabel == some label && pluginOk filterPlugin r)

/-- Does a command rule answer to `name` — either as its canonical name, or
(when `followAlias` is set) as one of its declared aliases? -/
def commandAnswersTo (name : String) (followAlias : Bool) (r : Rule) : Bool :=
  r.cmdName == some name || (followAlias && r.aliases.contains name)

/-- Modelled from the spec: `has_command` — existence check on the command
collection, with an optional plugin filter and a `follow_alias` flag
"permitting the query name to match a declared alias instead of only the
canonical name". -/
def Manager.hasCommand (m : Manager) (name : String)
    (followAlias : Bool) (filterPlugin : Option String) : Bool :=
  m.commands.any (fun r => commandAnswersTo name followAlias r &&
    pluginOk filterPlugin r)

/-- Modelled from the spec: `has_nick_command`. -/
def Manager.hasNickCommand (m : Manager) (name : String)
    (followAlias : Bool) (filterPlugin : Option String) : Bool :=
  m.nickCommands.any (fun r => commandAnswersTo name followAlias r &&
    pluginOk filterPlugin r)

/-- Modelled from the spec: `has_action_command`. -/
def Manager.hasActionCommand (m : Manager) (name : String)
    (followAlias : Bool) (filterPlugin : Option String) : Bool :=
  m.actionCommands.any (fun r => commandAnswersTo name followAlias r &&
    pluginOk filterPlugin r)

/-- One element of the sequence returned by `get_triggered_rules`: a
`(rule, match)` pair; `idx` is the index of the compiled pattern that
produced the match (distinct match objects in Python). -/
structure RuleEntry where
  rule : Rule
  idx : Nat
  res : MatchRes

/-- The `(rule, match)` entries contributed by one rule: one entry per
match result of `Rule.match`, in order. -/
def entryOf (botNick : String) (pre : PreTrigger) (r : Rule) :
    List RuleEntry :=
  (r.match botNick pre).map (fun im => ⟨r, im.1, im.2⟩)

/-- The deterministic base traversal of `get_triggered_rules`: categories in
fixed order, registration order within a category, one entry per match
result of each rule. -/
def Manager.baseTriggered (m : Manager) (botNick : String) (pre : PreTrigger) :
    List RuleEntry :=
  (m.allRules).flatMap (entryOf botNick pre)

/-- Stable insertion of an entry into a list sorted by descending priority
scale: the new entry goes after every existing entry of strictly greater
scale and before the first entry of smaller-or-equal scale, so entries of
equal priority keep their original relative order. -/
def insertByScale (e : RuleEntry) : List RuleEntry → List RuleEntry
  | [] => [e]
  | y :: ys =>
    if e.rule.priority.scale < y.rule.priority.scale then
      y :: insertByScale e ys
    else
      e :: y :: ys

/-- Stable sort by descending priority scale (Python's stable
`sorted(matches, key=priority_scale, reverse=True)`). -/
def sortByScale : List RuleEntry → List RuleEntry
  | [] => []
  | e :: es => insertByScale e (sortByScale es)

/-- Modelled from the spec: `get_triggered_rules(event)` — "iterate generic
rules, commands, nick-commands, action-commands, and URL callbacks in a
fixed category order; within a category, iterate in registration order; for
each rule call `match(event)` and emit one `(rule, match)` pair per match
result returned", retrieved "by order of priority" with a sort that is
stable over the base traversal. -/
def Manager.getTriggeredRules (m : Manager) (botNick : String)
    (pre : PreTrigger) : List RuleEntry :=
  sortByScale (m.baseTriggered botNick pre)

/-! ## Settings and bot state

Configuration values consumed by `bot.py`.  Blocklist entries are modelled
as abstract predicates (each Python entry is matched by
`re.match(mask + '$', value, re.IGNORECASE) or mask == value`). -/

/-- A channel's per-channel configuration section, as read by
`Sopel.call_rule` / `Sopel.call`: the optional `disable_plugins` list and
the optional `disable_commands` mapping from plugin name to disabled
labels. -/
structure ChannelCfg where
  disablePlugins : Option (List String)
  disableCommands : Option (List (String × List String))

/-- The externally supplied configuration: admin nicks, the two blocklists,
and per-channel configuration sections. -/
structure Settings where
  admins : List String
  nickBlocks : List (String → Bool)
  hostBlocks : List (String → Bool)
  channelCfgs : List (String × ChannelCfg)

/-- From `Sopel._nick_blocked`: some blocklist entry matches the nick. -/
def nickBlockedBy (s : Settings) (nick : String) : Bool :=
  s.nickBlocks.any (fun f => f nick)

/-- From `Sopel._host_blocked`: some blocklist entry matches the host. -/
def hostBlockedBy (s : Settings) (host : String) : Bool :=
  s.hostBlocks.any (fun f => f host)

/-- From `Sopel._is_pretrigger_blocked`: `(None, None)` — here
`(false, false)` — when both blocklists are empty, otherwise the two
independent nick/host verdicts. -/
def isPretriggerBlocked (s : Settings) (pre : PreTrigger) : Bool × Bool :=
  if s.nickBlocks.isEmpty && s.hostBlocks.isEmpty then (false, false)
  else (nickBlockedBy s pre.nick, hostBlockedBy s pre.host)

/-- The bot's state as seen by `Sopel.dispatch`: its nickname, settings,
rules manager, joined channels (with optional recorded join time) and known
users (nick to account name). -/
structure BotState where
  botNick : String
  settings : Settings
  mgr : Manager
  channels : List (String × Option Int)
  users : List (String × String)

/-- Build a `Trigger` from a pretrigger and resolved account, as the
dispatch loop does (`Trigger(self.settings, pretrigger, match, account)`;
the `sopel/trigger.py` module is outside the embedded sources, so the
identity resolution is modelled from the spec: "resolved identity facts
(is the sender an admin/owner, is this a private message, account name if
known)", with admin status looked up in the settings' admin list). -/
def mkTrigger (s : Settings) (pre : PreTrigger) (account : Option String) :
    Trig where
  nick := pre.nick
  sender := pre.sender
  isPrivmsg := pre.senderIsNick
  admin := s.admins.contains pre.nick
  account := account

/-! ## Context binding (`Sopel.bind_trigger` / `Sopel.bind_rule`)

From `sopel/bot.py`: the bot's contextvar-based binding of the current
trigger and rule.  A token records the previous value, restored on
unbind. -/

/-- The bot's binding context: the context-bound trigger and rule. -/
structure BotBind where
  trig : Option Trig
  rul : Option Rule

/-- From `Sopel.bind_trigger`: raises `RuntimeError` when the bot is
already bound to a trigger, otherwise binds and returns the context token
(the previous value) with the new state.  The error case performs no state
change (the `raise` precedes the `set`). -/
def bindTrigger (b : BotBind) (t : Trig) :
    Except String (Option Trig × BotBind) :=
  if b.trig.isSome then
    .error "Sopel is already bound to a trigger."
  else
    .ok (b.trig, { b with trig := some t })

/-- From `Sopel.unbind_trigger`: restore the value saved in the token. -/
def unbindTrigger (b : BotBind) (token : Option Trig) : BotBind :=
  { b with trig := token }

/-- From `Sopel.bind_rule`: raises `RuntimeError` when the bot is already
bound to a rule, otherwise binds and returns the context token with the
new state. -/
def bindRule (b : BotBind) (r : Rule) :
    Except String (Option Rule × BotBind) :=
  if b.rul.isSome then
    .error "Sopel is already bound to a rule."
  else
    .ok (b.rul, { b with rul := some r })

/-- From `Sopel.unbind_rule`: restore the value saved in the token. -/
def unbindRule (b : BotBind) (token : Option Rule) : BotBind :=
  { b with rul := token }

/-! ## `Sopel.call_rule` — per-rule gating and execution -/

/-- Result of one `Sopel.call_rule` invocation.  `skippedRateLimit` and
`skippedChannelConfig` are the early returns; `completed` carries the rule
with its updated ledger; `errorLogged` is a handler exception (or an
improperly-configured-rule error) caught at the dispatcher boundary and
logged; `interrupt` is a re-raised `KeyboardInterrupt`. -/
inductive CallResult where
  | skippedRateLimit
  | skippedChannelConfig
  | completed (r : Rule)
  | errorLogged
  | interrupt

/-- From `Sopel.call_rule`: the channel-scoped configuration check.  Skips
execution when the destination channel's configuration disables the rule's
plugin (`disable_plugins`, where `*` disables all) or the rule's label
(`disable_commands`), except that the `coretasks` plugin is never skipped.
A rule whose label cannot be resolved is treated as not listed (in Python
this lookup raises, a dispatcher-level configuration defect outside the
properties proved here). -/
def channelConfigSkips (s : Settings) (r : Rule) (tr : Trig) : Bool :=
  if tr.isPrivmsg then false
  else
    match (s.channelCfgs.find? (fun e => e.1 == tr.sender)).map (fun e => e.2) with
    | none => false
    | some cfg =>
      let byPlugins :=
        match cfg.disablePlugins with
        | none => false
        | some dp =>
          if r.plugin == some "coretasks" then false
          else if dp.contains "*" then true
          else
            match r.plugin with
            | some p => dp.contains p
            | none => false
      if byPlugins then true
      else
        match cfg.disableCommands with
        | none => false
        | some dc =>
          let disabled : List String :=
            match r.plugin with
            | some p =>
              ((dc.find? (fun (e : String × List String) => e.1 == p)).map
                (fun e => e.2)).getD []
            | none => []
          match r.getRuleLabel with
          | none => false
          | some lbl =>
            disabled.contains lbl && !(r.plugin == some "coretasks")

/-- From `Sopel.call_rule`: unless the user is an admin or the rule
unblockable, check the user rate limit, then (in a channel) the channel
rate limit, then the global rate limit, returning early when limited; then
the channel configuration check; then execute the rule, re-raising a
`KeyboardInterrupt` and catching every other exception
(`sopel.error(trigger, exception=error)`). -/
def callRule (s : Settings) (r : Rule) (tr : Trig) (now : Int) : CallResult :=
  if !tr.admin && !r.unblockable &&
      (r.isRateLimited tr.nick now ||
        (!tr.isPrivmsg && r.isChannelRateLimited tr.sender now) ||
        r.isGlobalRateLimited now) then
    .skippedRateLimit
  else if channelConfigSkips s r tr then
    .skippedChannelConfig
  else
    match r.execute tr now with
    | .interrupted _ => .interrupt
    | .excRaised _ => .errorLogged
    | .configError => .errorLogged
    | .ok r' => .completed r'

/-! ## `Sopel.dispatch` — the per-event pipeline -/

/-- One rule offered execution by the dispatch loop: the triggered entry,
whether it was spawned on its own thread, and the `call_rule` result. -/
structure OfferRec where
  entry : RuleEntry
  threaded : Bool
  result : CallResult

/-- Outcome of the dispatch loop over the triggered entries: `fine` when
the loop ran to the end, `stopped` when an inline (unthreaded) rule
re-raised a `KeyboardInterrupt`, aborting the loop. -/
inductive LoopOut where
  | fine (offered : List OfferRec) (suppressed : List RuleEntry)
  | stopped (offered : List OfferRec) (suppressed : List RuleEntry)

/-- The per-entry blocklist gate of the dispatch loop: a triggered entry is
suppressed when the event is blocked, the triggering user is not an admin,
and the rule is not unblockable
(`blocked and not is_unblockable` with
`is_unblockable = trigger.admin or rule.is_unblockable()`). -/
def suppressedByBlocklist (blocked : Bool) (tr : Trig) (e : RuleEntry) : Bool :=
  blocked && !(tr.admin || e.rule.unblockable)

/-- From the per-rule loop of `Sopel.dispatch`: for each `(rule, match)`
entry in order, build the trigger; if the event is blocked and neither the
user is an admin nor the rule unblockable, record the rule as suppressed
and continue; otherwise offer the rule execution — threaded rules are
spawned (a `KeyboardInterrupt` inside a thread cannot abort the loop),
unthreaded rules run inline (re-raised `KeyboardInterrupt` aborts). -/
def dispatchLoop (s : Settings) (blocked : Bool) (tr : Trig) (now : Int) :
    List RuleEntry → LoopOut
  | [] => .fine [] []
  | e :: es =>
    if suppressedByBlocklist blocked tr e then
      match dispatchLoop s blocked tr now es with
      | .fine o sup => .fine o (e :: sup)
      | .stopped o sup => .stopped o (e :: sup)
    else
      let res := callRule s e.rule tr now
      if e.rule.threaded then
        match dispatchLoop s blocked tr now es with
        | .fine o sup => .fine (⟨e, true, res⟩ :: o) sup
        | .stopped o sup => .stopped (⟨e, true, res⟩ :: o) sup
      else
        match res with
        | .interrupt => .stopped [⟨e, false, .interrupt⟩] []
        | _ =>
          match dispatchLoop s blocked tr now es with
          | .fine o sup => .fine (⟨e, false, res⟩ :: o) sup
          | .stopped o sup => .stopped (⟨e, false, res⟩ :: o) sup

/-- Result of one `Sopel.dispatch` call: `dropped` for a replayed message
filtered out before any rule is evaluated, `done` for a completed dispatch,
`interrupted` when an inline `KeyboardInterrupt` escaped. -/
inductive DispatchOut where
  | dropped
  | done (offered : List OfferRec) (suppressed : List RuleEntry)
  | interrupted (offered : List OfferRec) (suppressed : List RuleEntry)

/-- From `Sopel.dispatch`: the replay filter — a message carrying a `time`
tag, addressed to a joined channel whose recorded join time is later than
the message time, is dropped before any rule is evaluated. -/
def replayDropped (b : BotState) (pre : PreTrigger) : Bool :=
  pre.tags.contains "time" &&
    (match (b.channels.find? (fun e => e.1 == pre.sender)).map (fun e => e.2) with
     | none => false
     | some none => false
     | some (some jt) => pre.time < jt)

/-- From `Sopel.dispatch`: the event's overall blocked status —
`bool(nick_blocked or host_blocked)`. -/
def eventBlocked (s : Settings) (pre : PreTrigger) : Bool :=
  (isPretriggerBlocked s pre).1 || (isPretriggerBlocked s pre).2

/-- From `Sopel.dispatch`: the account of the sending user, when known
(`self.users.get(nick)` then `.account`). -/
def lookupAccount (b : BotState) (nick : String) : Option String :=
  (b.users.find? (fun e => e.1 == nick)).map (fun e => e.2)

/-- From `Sopel.dispatch`: resolve blocklist status and account, drop
replayed messages, then run the per-rule loop over
`get_triggered_rules`. -/
def dispatch (b : BotState) (pre : PreTrigger) (now : Int) : DispatchOut :=
  if replayDropped b pre then .dropped
  else
    match dispatchLoop b.settings (eventBlocked b.settings pre)
        (mkTrigger b.settings pre (lookupAccount b pre.nick)) now
        (b.mgr.getTriggeredRules b.botNick pre) with
    | .fine o sup => .done o sup
    | .stopped o sup => .interrupted o sup

/-! ## `Sopel.call` — the legacy per-function dispatch path

From `sopel/bot.py`: `Sopel.call(func, trigger)` applies rate limits and
channel configuration to a plugin callable carrying attribute-based
metadata, runs it with exceptions caught (`exit_code = None`), and then
updates the bot-level `_times` ledger for every key (user, bot nick, and
the channel for non-private messages) unless the exit code is the
`NOLIMIT` sentinel. -/

/-- Modelled from the spec: the "ignore rate limit" sentinel return value
(`sopel.plugin.NOLIMIT`, whose defining module is outside the embedded
sources; its exact value is irrelevant to the proofs). -/
def NOLIMIT : Int := 1

/-- Behaviour of a legacy plugin callable: return an exit code, or raise. -/
inductive LegacyOutcome where
  | returns (code : Option Int)
  | raises

/-- A legacy plugin callable with its attribute-based metadata
(`func.unblockable`, `func.user_rate`, `func.channel_rate`,
`func.global_rate`, `func.plugin_name`, `func.__name__`).  `fid` stands for
the function's identity, used as a ledger key. -/
structure LegacyFunc where
  fid : Nat
  funcName : String
  pluginName : String
  unblockable : Bool
  userRate : Int
  channelRate : Int
  globalRate : Int
  behavior : Trig → LegacyOutcome

/-- The bot-level `_times` ledger: `(owner nick or channel, function)` to
the timestamp of the last recorded use. -/
abbrev Times : Type := List ((String × Nat) × Int)

/-- Look up a `_times` entry (latest entry wins). -/
def timesGet (t : Times) (k : String × Nat) : Option Int :=
  (t.find? (fun e => e.1 == k)).map (fun e => e.2)

/-- Record a `_times` entry. -/
def timesSet (t : Times) (k : String × Nat) (v : Int) : Times :=
  (k, v) :: t

/-- The ledger update performed by `Sopel.call` after a non-`NOLIMIT`
completion: user key, bot-nick (global) key, and the channel key for
non-private messages. -/
def legacyUpdate (t : Times) (botNick : String) (f : LegacyFunc) (tr : Trig)
    (now : Int) : Times :=
  let t1 := timesSet t (tr.nick, f.fid) now
  let t2 := timesSet t1 (botNick, f.fid) now
  if tr.isPrivmsg then t2 else timesSet t2 (tr.sender, f.fid) now

/-- How one `Sopel.call` invocation ended: skipped by a rate limit, skipped
by channel configuration, or ran with the given exit code (`none` models
both a `None` return and a caught exception, exactly as the code's
`exit_code = None`). -/
inductive LegacyStatus where
  | limited
  | disabled
  | ran (code : Option Int)
deriving DecidableEq

/-- From `Sopel.call`: the rate-limit gate — for a non-admin,
non-unblockable callable, the user, then global, then channel windows are
consulted against `_times`; a positive window with a recent enough
timestamp blocks the call. -/
def legacyGated (times : Times) (botNick : String) (f : LegacyFunc)
    (tr : Trig) (now : Int) : Bool :=
  !tr.admin && !f.unblockable &&
    ((match timesGet times (tr.nick, f.fid) with
      | some t => f.userRate > 0 && now - t < f.userRate
      | none => false) ||
     (match timesGet times (botNick, f.fid) with
      | some t => f.globalRate > 0 && now - t < f.globalRate
      | none => false) ||
     (!tr.isPrivmsg &&
      (match timesGet times (tr.sender, f.fid) with
       | some t => f.channelRate > 0 && now - t < f.channelRate
       | none => false)))

/-- From `Sopel.call`: the channel-configuration gate — for a channel with
its own configuration section and a callable not owned by `coretasks`,
skip when the plugin is listed in `disable_plugins` (or `*` is), or when
the function's name is listed for its plugin in `disable_commands`. -/
def legacyDisabled (s : Settings) (f : LegacyFunc) (tr : Trig) : Bool :=
  match (s.channelCfgs.find? (fun e => e.1 == tr.sender)).map (fun e => e.2) with
  | none => false
  | some cfg =>
    if f.pluginName == "coretasks" then false
    else
      (match cfg.disablePlugins with
       | none => false
       | some dp => dp.contains "*" || dp.contains f.pluginName) ||
      (match cfg.disableCommands with
       | none => false
       | some dc =>
         match (dc.find? (fun e => e.1 == f.pluginName)).map (fun e => e.2) with
         | none => false
         | some names => names.contains f.funcName)

/-- From `Sopel.call`: the exit code of one invocation of the callable —
its return value, or `None` when it raises (the `except` branch sets
`exit_code = None`). -/
def legacyExitCode (f : LegacyFunc) (tr : Trig) : Option Int :=
  match f.behavior tr with
  | .returns c => c
  | .raises => none

/-- From `Sopel.call`: gate on rate limits and channel configuration, then
run the callable with exceptions caught (`exit_code = None`), and update
the `_times` ledger for every applicable key unless the exit code is the
`NOLIMIT` sentinel. -/
def call (s : Settings) (botNick : String) (times : Times) (f : LegacyFunc)
    (tr : Trig) (now : Int) : Times × LegacyStatus :=
  if legacyGated times botNick f tr now then
    (times, .limited)
  else if legacyDisabled s f tr then
    (times, .disabled)
  else if legacyExitCode f tr == some NOLIMIT then
    (times, .ran (legacyExitCode f tr))
  else
    (legacyUpdate times botNick f tr now, .ran (legacyExitCode f tr))

/-! # Theorems -/

/-- C10: the bot's trigger/rule context binding is non-reentrant — for any
context already bound to a trigger (resp. a rule), calling `bind_trigger`
(resp. `bind_rule`) again before unbinding raises `RuntimeError`; the
`raise` precedes any state change, so the existing binding is left
unchanged (no new state is produced). -/
theorem bind_non_reentrant :
    (∀ (b : BotBind) (t t0 : Trig), b.trig = some t0 →
      bindTrigger b t = Except.error "Sopel is already bound to a trigger.") ∧
    (∀ (b : BotBind) (r r0 : Rule), b.rul = some r0 →
      bindRule b r = Except.error "Sopel is already bound to a rule.") := by
  constructor
  · intro b t t0 h
    simp [bindTrigger, h]
  · intro b r r0 h
    simp [bindRule, h]

/-- Witness for C10: a concretely bound context rejects a second binding. -/
theorem bind_non_reentrant_witness :
    bindTrigger
      ⟨some ⟨"Foo", "#chan", false, false, none⟩, none⟩
      ⟨"Bar", "#chan", false, false, none⟩
      = Except.error "Sopel is already bound to a trigger." :=
  bind_non_reentrant.1 _ _ ⟨"Foo", "#chan", false, false, none⟩ rfl

/-- C9: for every `ActionCommand`, `match_intent(intent)` is true exactly
when the intent is the `ACTION` tag — whatever intent filters the rule was
constructed with, they are never consulted. -/
theorem action_command_match_intent
    (name : String) (aliases : List String) (intents : List (String → Bool))
    (plugin : Option String) (intent : Option String) :
    (mkActionCommand name aliases intents plugin).matchIntent intent
      = (intent == some "ACTION") := by
  rfl

/-- C3: rate limiting — for a rule with positive user, channel, and global
windows and an empty ledger, no check reports limited; immediately after one
`execute` whose handler returns a normal value, all three checks report
limited for the executed user/channel/global keys; a handler returning the
ignore-rate-limit sentinel leaves all three ledgers unchanged (the same
rule value comes back, so all checks still report false); and any rule
whose window is zero or less is never limited on the corresponding check,
whatever its ledger holds. -/
theorem rule_rate_limiting
    (r : Rule) (h : Handler) (tr : Trig) (now : Int)
    (hUser : r.rateLimit > 0)
    (hChan : r.channelRateLimit > 0)
    (hGlob : r.globalRateLimit > 0)
    (hLedgerU : r.userLedger = [])
    (hLedgerC : r.channelLedger = [])
    (hLedgerG : r.globalLedger = none)
    (hHandler : r.handler = some h)
    (hNotPriv : tr.isPrivmsg = false) :
    (r.isRateLimited tr.nick now = false ∧
     r.isChannelRateLimited tr.sender now = false ∧
     r.isGlobalRateLimited now = false) ∧
    (h tr = .value false →
      r.execute tr now = .ok (r.updateLedgers tr now) ∧
      (r.updateLedgers tr now).isRateLimited tr.nick now = true ∧
      (r.updateLedgers tr now).isChannelRateLimited tr.sender now = true ∧
      (r.updateLedgers tr now).isGlobalRateLimited now = true) ∧
    (h tr = .value true → r.execute tr now = .ok r) ∧
    (∀ (r2 : Rule) (nick channel : String) (t : Int),
      (r2.rateLimit ≤ 0 → r2.isRateLimited nick t = false) ∧
      (r2.channelRateLimit ≤ 0 → r2.isChannelRateLimited channel t = false) ∧
      (r2.globalRateLimit ≤ 0 → r2.isGlobalRateLimited t = false)) := by
  refine ⟨⟨?_, ?_, ?_⟩, ?_, ?_, ?_⟩
  · simp [Rule.isRateLimited, ledgerGet, hLedgerU]
  · simp [Rule.isChannelRateLimited, ledgerGet, hLedgerC]
  · simp [Rule.isGlobalRateLimited, hLedgerG]
  · intro hv
    refine ⟨?_, ?_, ?_, ?_⟩
    · simp [Rule.execute, hHandler, hv]
    · simp [Rule.isRateLimited, Rule.updateLedgers, ledgerGet, ledgerSet, hUser]
    · simp [Rule.isChannelRateLimited, Rule.updateLedgers, ledgerGet,
        ledgerSet, hNotPriv, hChan]
    · simp [Rule.isGlobalRateLimited, Rule.updateLedgers, hGlob]
  · intro hv
    simp [Rule.execute, hHandler, hv]
  · intro r2 nick channel t
    refine ⟨?_, ?_, ?_⟩
    · intro hle
      simp [Rule.isRateLimited]
      intro hgt
      omega
    · intro hle
      simp [Rule.isChannelRateLimited]
      intro hgt
      omega
    · intro hle
      simp [Rule.isGlobalRateLimited]
      intro hgt
      omega

/-- A concrete rule with 20-second user/channel/global windows and a
handler returning a normal value, matching everything (used as a test
fixture by several witnesses). -/
def limitedRule : Rule :=
  { defaultRule with
    plugin := some "testplugin"
    label := some "testrule"
    matchers := [fun text => some ⟨text, []⟩]
    rateLimit := 20
    channelRateLimit := 20
    globalRateLimit := 20
    handler := some (fun _ => .value false) }

/-- A concrete channel-message trigger from user `Foo` in `#channel`. -/
def fooTrig : Trig := ⟨"Foo", "#channel", false, false, none⟩

/-- Witness for C3: before any execution, the concrete 20-second rule is
not limited on any of the three checks, and after one normal execution all
three checks report limited. -/
theorem rule_rate_limiting_witness :
    (limitedRule.isRateLimited "Foo" 100 = false ∧
     limitedRule.isChannelRateLimited "#channel" 100 = false ∧
     limitedRule.isGlobalRateLimited 100 = false) ∧
    (limitedRule.execute fooTrig 100
        = .ok (limitedRule.updateLedgers fooTrig 100) ∧
     (limitedRule.updateLedgers fooTrig 100).isRateLimited "Foo" 100 = true ∧
     (limitedRule.updateLedgers fooTrig 100).isChannelRateLimited
        "#channel" 100 = true ∧
     (limitedRule.updateLedgers fooTrig 100).isGlobalRateLimited 100 = true) :=
  ⟨(rule_rate_limiting limitedRule (fun _ => .value false) fooTrig 100
      (by decide) (by decide) (by decide) rfl rfl rfl rfl rfl).1,
   (rule_rate_limiting limitedRule (fun _ => .value false) fooTrig 100
      (by decide) (by decide) (by decide) rfl rfl rfl rfl rfl).2.1 rfl⟩

/-! ## The stable priority sort

The stable descending sort by priority scale is characterized as the
concatenation of the three priority classes of the base traversal, each in
base order. -/

/-- The entries of one priority class, in their original order. -/
def prioFilter (p : Priority) (l : List RuleEntry) : List RuleEntry :=
  l.filter (fun e => e.rule.priority == p)

theorem scale_le_high (p : Priority) : p.scale ≤ Priority.high.scale := by
  cases p <;> simp [Priority.scale]

theorem insertByScale_front (e : RuleEntry) (l : List RuleEntry)
    (h : ∀ y ∈ l, y.rule.priority.scale ≤ e.rule.priority.scale) :
    insertByScale e l = e :: l := by
  cases l with
  | nil => rfl
  | cons y ys =>
    have hy := h y (by simp)
    simp only [insertByScale]
    rw [if_neg (by omega)]

theorem insertByScale_append (e : RuleEntry) (A B : List RuleEntry)
    (hA : ∀ a ∈ A, e.rule.priority.scale < a.rule.priority.scale)
    (hB : ∀ b ∈ B, b.rule.priority.scale ≤ e.rule.priority.scale) :
    insertByScale e (A ++ B) = A ++ e :: B := by
  induction A with
  | nil =>
    simpa using insertByScale_front e B hB
  | cons a A' ih =>
    have ha := hA a (by simp)
    simp only [List.cons_append, insertByScale, List.append_eq]
    rw [if_pos ha, ih (fun x hx => hA x (by simp [hx]))]

theorem mem_prioFilter_priority {p : Priority} {l : List RuleEntry}
    {x : RuleEntry} (h : x ∈ prioFilter p l) : x.rule.priority = p := by
  have := List.of_mem_filter h
  simpa using this

/-- The stable descending insertion sort equals the concatenation of the
three priority classes: high-priority entries first (in base order), then
medium, then low. -/
theorem sortByScale_partition (l : List RuleEntry) :
    sortByScale l =
      prioFilter .high l ++ prioFilter .medium l ++ prioFilter .low l := by
  induction l with
  | nil => rfl
  | cons e es ih =>
    simp only [sortByScale, ih]
    cases hp : e.rule.priority with
    | high =>
      rw [insertByScale_front]
      · simp [prioFilter, List.filter_cons, hp]
      · intro y _
        rw [hp]
        exact scale_le_high _
    | medium =>
      rw [List.append_assoc, insertByScale_append e (prioFilter .high es)
        (prioFilter .medium es ++ prioFilter .low es)]
      · simp [prioFilter, List.filter_cons, hp]
      · intro a ha
        have := mem_prioFilter_priority ha
        simp [this, hp, Priority.scale]
      · intro b hb
        rcases List.mem_append.mp hb with hb | hb
        · have := mem_prioFilter_priority hb
          simp [this, hp, Priority.scale]
        · have := mem_prioFilter_priority hb
          simp [this, hp, Priority.scale]
    | low =>
      rw [insertByScale_append e
        (prioFilter .high es ++ prioFilter .medium es) (prioFilter .low es)]
      · simp [prioFilter, List.filter_cons, hp]
      · intro a ha
        rcases List.mem_append.mp ha with ha | ha
        · have := mem_prioFilter_priority ha
          simp [this, hp, Priority.scale]
        · have := mem_prioFilter_priority ha
          simp [this, hp, Priority.scale]
      · intro b hb
        have := mem_prioFilter_priority hb
        simp [this, hp, Priority.scale]

/-- C2: the sequence produced by `get_triggered_rules` is exactly the
high-priority entries of the deterministic base traversal (category order,
then registration order), followed by the medium-priority entries, followed
by the low-priority ones — each class in base order.  Hence for two rules
matching the same line, the higher-priority one always appears before the
lower-priority one regardless of registration order, and within equal
priority the base (registration) order is preserved: the priority sort is
stable over the base order. -/
theorem get_triggered_rules_priority_order (m : Manager) (botNick : String)
    (pre : PreTrigger) :
    m.getTriggeredRules botNick pre =
      prioFilter .high (m.baseTriggered botNick pre) ++
      prioFilter .medium (m.baseTriggered botNick pre) ++
      prioFilter .low (m.baseTriggered botNick pre) :=
  sortByScale_partition _

/-! ## Per-rule entries of `get_triggered_rules` -/

/-- The entries of a triggered-rule sequence that belong to the rule
identified by a plugin name and a label. -/
def entriesFor (l : List RuleEntry) (pl lbl : String) : List RuleEntry :=
  l.filter (fun e => e.rule.plugin == some pl && e.rule.label == some lbl)

/-- Does the `i`-th compiled matcher of `ms` match the text? -/
def matcherHitsAt (ms : List Matcher) (i : Nat) (text : List Char) : Bool :=
  match ms[i]? with
  | none => false
  | some p => (p text).isSome

theorem entriesFor_append (l1 l2 : List RuleEntry) (pl lbl : String) :
    entriesFor (l1 ++ l2) pl lbl = entriesFor l1 pl lbl ++ entriesFor l2 pl lbl :=
  List.filter_append _ _

theorem entriesFor_entryOf_self (botNick : String) (pre : PreTrigger)
    (R : Rule) (pl lbl : String)
    (hpl : R.plugin = some pl) (hlbl : R.label = some lbl) :
    entriesFor (entryOf botNick pre R) pl lbl = entryOf botNick pre R := by
  apply List.filter_eq_self.mpr
  intro e he
  rcases List.mem_map.mp he with ⟨im, _, rfl⟩
  simp [hpl, hlbl]

theorem entriesFor_entryOf_none (botNick : String) (pre : PreTrigger)
    (r : Rule) (pl lbl : String)
    (h : ¬(r.plugin = some pl ∧ r.label = some lbl)) :
    entriesFor (entryOf botNick pre r) pl lbl = [] := by
  apply List.filter_eq_nil_iff.mpr
  intro e he
  rcases List.mem_map.mp he with ⟨im, _, rfl⟩
  simp only [Bool.not_eq_true, Bool.and_eq_true, beq_iff_eq]
  intro hcontra
  exact h ⟨hcontra.1, hcontra.2⟩

theorem entriesFor_flat_none (botNick : String) (pre : PreTrigger)
    (rs : List Rule) (pl lbl : String)
    (h : ∀ r ∈ rs, ¬(r.plugin = some pl ∧ r.label = some lbl)) :
    entriesFor (rs.flatMap (entryOf botNick pre)) pl lbl = [] := by
  induction rs with
  | nil => rfl
  | cons r rest ih =>
    simp only [List.flatMap_cons]
    rw [entriesFor_append,
      entriesFor_entryOf_none botNick pre r pl lbl (h r (by simp)),
      ih (fun x hx => h x (by simp [hx]))]
    rfl

theorem entriesFor_prioFilter (p : Priority) (l : List RuleEntry)
    (pl lbl : String) :
    entriesFor (prioFilter p l) pl lbl = prioFilter p (entriesFor l pl lbl) := by
  simp only [entriesFor, prioFilter, List.filter_filter]
  apply List.filter_congr
  intro e _
  exact Bool.and_comm _ _

theorem prioFilter_collapse (X : List RuleEntry) (q : Priority)
    (h : ∀ x ∈ X, x.rule.priority = q) :
    prioFilter .high X ++ prioFilter .medium X ++ prioFilter .low X = X := by
  have hself : prioFilter q X = X :=
    List.filter_eq_self.mpr (fun x hx => by simp [h x hx])
  have hnil : ∀ p : Priority, p ≠ q → prioFilter p X = [] := by
    intro p hpq
    apply List.filter_eq_nil_iff.mpr
    intro x hx
    simp [h x hx, Ne.symm hpq]
  cases q
  · rw [hnil .high (by simp), hnil .medium (by simp), hself]; rfl
  · rw [hnil .high (by simp), hself, hnil .low (by simp)]; simp
  · rw [hself, hnil .medium (by simp), hnil .low (by simp)]; simp

theorem tryPatterns_fst (text : List Char) :
    ∀ (ms : List Matcher) (i : Nat),
      (tryPatterns i ms text).map Prod.fst
        = ((List.range ms.length).filter
            (fun j => matcherHitsAt ms j text)).map (fun j => j + i) := by
  intro ms
  induction ms with
  | nil => intro i; rfl
  | cons p rest ih =>
    intro i
    have hrange : List.range (rest.length + 1)
        = 0 :: (List.range rest.length).map Nat.succ :=
      List.range_succ_eq_map rest.length
    have hhit0 : matcherHitsAt (p :: rest) 0 text = (p text).isSome := by
      simp [matcherHitsAt]
    have hhitS : ∀ j, matcherHitsAt (p :: rest) (Nat.succ j) text
        = matcherHitsAt rest j text := by
      intro j
      simp [matcherHitsAt]
    have hfil : (List.range rest.length).filter
          ((fun j => matcherHitsAt (p :: rest) j text) ∘ Nat.succ)
        = (List.range rest.length).filter (fun j => matcherHitsAt rest j text) :=
      List.filter_congr (fun j _ => hhitS j)
    simp only [tryPatterns, List.length_cons, hrange, List.filter_cons]
    cases hp : p text with
    | some m =>
      rw [if_pos (by rw [hhit0, hp]; rfl)]
      simp only [List.map_cons, ih (i + 1)]
      rw [List.filter_map, hfil, List.map_map]
      congr 1
      · omega
      · apply List.map_congr_left
        intro j _
        simp only [Function.comp_apply]
        omega
    | none =>
      rw [if_neg (by rw [hhit0, hp]; simp)]
      simp only [ih (i + 1)]
      rw [List.filter_map, hfil, List.map_map]
      apply List.map_congr_left
      intro j _
      simp only [Function.comp_apply]
      omega

/-- C1: for a registered rule `R`, uniquely identified among the registered
rules by its plugin name and label, the entries of `get_triggered_rules`
belonging to `R` are exactly `R`'s own match results, in declaration order
of its compiled patterns: when the event/intent/echo gates pass, the
pattern indices of the yielded matches are exactly the indices of the
patterns that match the line, in increasing order (so a rule with `K`
matching patterns yields exactly `K` entries, each from a distinct
pattern); when the gates fail, or when no pattern matches, the rule yields
no entry. -/
theorem get_triggered_rules_per_rule
    (m : Manager) (botNick : String) (pre : PreTrigger)
    (R : Rule) (pl lbl : String) (l1 l2 : List Rule)
    (hsplit : m.allRules = l1 ++ R :: l2)
    (hpl : R.plugin = some pl) (hlbl : R.label = some lbl)
    (huniq : ∀ r ∈ l1 ++ l2, ¬(r.plugin = some pl ∧ r.label = some lbl)) :
    entriesFor (m.getTriggeredRules botNick pre) pl lbl
        = entryOf botNick pre R ∧
    (R.gatesPass botNick pre = true →
      (R.match botNick pre).map Prod.fst
        = (List.range R.matchers.length).filter
            (fun j => matcherHitsAt R.matchers j pre.text)) ∧
    (R.gatesPass botNick pre = false → R.match botNick pre = []) ∧
    ((R.match botNick pre).map Prod.fst).Nodup := by
  have hmatch : R.gatesPass botNick pre = true →
      (R.match botNick pre).map Prod.fst
        = (List.range R.matchers.length).filter
            (fun j => matcherHitsAt R.matchers j pre.text) := by
    intro hg
    unfold Rule.match
    rw [hg]
    simp only [if_true]
    have := tryPatterns_fst pre.text R.matchers 0
    simpa using this
  refine ⟨?_, hmatch, ?_, ?_⟩
  · have hbase : entriesFor (m.baseTriggered botNick pre) pl lbl
        = entryOf botNick pre R := by
      unfold Manager.baseTriggered
      rw [hsplit, List.flatMap_append, List.flatMap_cons]
      rw [entriesFor_append, entriesFor_append]
      rw [entriesFor_flat_none botNick pre l1 pl lbl
            (fun r hr => huniq r (by simp [hr])),
          entriesFor_entryOf_self botNick pre R pl lbl hpl hlbl,
          entriesFor_flat_none botNick pre l2 pl lbl
            (fun r hr => huniq r (by simp [hr]))]
      simp
    have hgt : m.getTriggeredRules botNick pre
        = sortByScale (m.baseTriggered botNick pre) := rfl
    rw [hgt, sortByScale_partition]
    rw [entriesFor_append, entriesFor_append,
        entriesFor_prioFilter, entriesFor_prioFilter, entriesFor_prioFilter,
        hbase]
    apply prioFilter_collapse _ R.priority
    intro x hx
    rcases List.mem_map.mp hx with ⟨im, _, rfl⟩
    rfl
  · intro hg
    unfold Rule.match
    rw [hg]
    simp
  · by_cases hg : R.gatesPass botNick pre = true
    · rw [hmatch hg]
      exact List.Nodup.filter _ (List.nodup_range _)
    · have hnil : R.match botNick pre = [] := by
        unfold Rule.match
        rw [Bool.not_eq_true] at hg
        rw [hg]
        simp
      simp [hnil]

/-- A concrete rule with four alternative patterns (`hello`, `hi`, `hey`,
`hello|hi`, case-insensitive anchored literals), mirroring the
`test_rule_from_callable` fixture. -/
def multiRule : Rule :=
  { defaultRule with
    plugin := some "testplugin"
    label := some "handler"
    matchers :=
      [fun t => if startsWithCI t "hello".toList
          then some ⟨t.take 5, []⟩ else none,
       fun t => if startsWithCI t "hi".toList
          then some ⟨t.take 2, []⟩ else none,
       fun t => if startsWithCI t "hey".toList
          then some ⟨t.take 3, []⟩ else none,
       fun t => if startsWithCI t "hello".toList
          then some ⟨t.take 5, []⟩
          else if startsWithCI t "hi".toList
          then some ⟨t.take 2, []⟩ else none] }

/-- A concrete rule of another plugin that matches everything. -/
def otherRule : Rule :=
  { defaultRule with
    plugin := some "other"
    label := some "other_rule"
    matchers := [fun t => some ⟨t, []⟩] }

/-- A concrete incoming channel message `Hello, world` from `Foo`. -/
def helloPre : PreTrigger :=
  ⟨"Foo", "foo@example.com", "#sopel", false, "Hello, world".toList,
    "PRIVMSG", none, 0, []⟩

/-- Witness for C1: with `otherRule` and `multiRule` registered, the
entries of `get_triggered_rules` belonging to `multiRule` are exactly its
own match results, and on `Hello, world` the matching pattern indices are
exactly the indices of the matching patterns of the four declared
alternatives (patterns 0 and 3). -/
theorem get_triggered_rules_per_rule_witness :
    entriesFor
        (((Manager.empty.register otherRule).register
            multiRule).getTriggeredRules "TestBot" helloPre)
        "testplugin" "handler"
      = entryOf "TestBot" helloPre multiRule ∧
    (multiRule.match "TestBot" helloPre).map Prod.fst
      = (List.range multiRule.matchers.length).filter
          (fun j => matcherHitsAt multiRule.matchers j helloPre.text) :=
  ⟨(get_triggered_rules_per_rule
      ((Manager.empty.register otherRule).register multiRule)
      "TestBot" helloPre multiRule "testplugin" "handler" [otherRule] []
      rfl rfl rfl (by simp [otherRule, defaultRule])).1,
   (get_triggered_rules_per_rule
      ((Manager.empty.register otherRule).register multiRule)
      "TestBot" helloPre multiRule "testplugin" "handler" [otherRule] []
      rfl rfl rfl (by simp [otherRule, defaultRule])).2.1 rfl⟩

/-! ## Frame properties of `unregister_plugin` -/

/-- The entries of a triggered-rule sequence owned by one plugin. -/
def pluginEntries (l : List RuleEntry) (pl : String) : List RuleEntry :=
  l.filter (fun e => e.rule.plugin == some pl)

theorem allRules_unregister (m : Manager) (A : String) :
    (m.unregisterPlugin A).allRules
      = m.allRules.filter (fun r => !(r.plugin == some A)) := by
  simp [Manager.allRules, Manager.unregisterPlugin, List.filter_append]

theorem any_filter_of_imp (l : List Rule) (p q : Rule → Bool)
    (h : ∀ r, q r = true → p r = true) :
    (l.filter p).any q = l.any q := by
  induction l with
  | nil => rfl
  | cons r rest ih =>
    by_cases hp : p r = true
    · simp [List.filter_cons, hp, List.any_cons, ih]
    · have hq : q r = false := by
        cases hqr : q r
        · rfl
        · exact absurd (h r hqr) hp
      simp [List.filter_cons, hp, List.any_cons, hq, ih]

theorem filter_sortByScale (f : RuleEntry → Bool) (l : List RuleEntry) :
    (sortByScale l).filter f = sortByScale (l.filter f) := by
  rw [sortByScale_partition l, sortByScale_partition (l.filter f)]
  simp only [List.filter_append]
  have swap : ∀ p : Priority,
      (prioFilter p l).filter f = prioFilter p (l.filter f) := by
    intro p
    simp only [prioFilter, List.filter_filter]
    apply List.filter_congr
    intro e _
    exact Bool.and_comm _ _
  rw [swap .high, swap .medium, swap .low]

theorem mem_baseTriggered_rule (m : Manager) (botNick : String)
    (pre : PreTrigger) (e : RuleEntry)
    (h : e ∈ m.baseTriggered botNick pre) : e.rule ∈ m.allRules := by
  rcases List.mem_flatMap.mp h with ⟨r, hr, he⟩
  rcases List.mem_map.mp he with ⟨im, _, rfl⟩
  exact hr

theorem mem_sortByScale (l : List RuleEntry) (e : RuleEntry)
    (h : e ∈ sortByScale l) : e ∈ l := by
  rw [sortByScale_partition] at h
  rcases List.mem_append.mp h with h | h
  · rcases List.mem_append.mp h with h | h
    · exact List.mem_of_mem_filter h
    · exact List.mem_of_mem_filter h
  · exact List.mem_of_mem_filter h

theorem pluginEntries_flatMap_filter (botNick : String) (pre : PreTrigger)
    (A B : String) (hAB : A ≠ B) (rs : List Rule) :
    pluginEntries ((rs.filter (fun r => !(r.plugin == some A))).flatMap
        (entryOf botNick pre)) B
      = pluginEntries (rs.flatMap (entryOf botNick pre)) B := by
  induction rs with
  | nil => rfl
  | cons r rest ih =>
    unfold pluginEntries at ih ⊢
    by_cases hA : r.plugin = some A
    · have hBnone : (entryOf botNick pre r).filter
          (fun e => e.rule.plugin == some B) = [] := by
        apply List.filter_eq_nil_iff.mpr
        intro e he
        rcases List.mem_map.mp he with ⟨im, _, rfl⟩
        simp [hA]
        exact hAB
      rw [List.filter_cons, if_neg (by simp [hA]), List.flatMap_cons,
        List.filter_append, hBnone, List.nil_append, ih]
    · rw [List.filter_cons, if_pos (by simp [hA]), List.flatMap_cons,
        List.flatMap_cons, List.filter_append, List.filter_append, ih]

/-- C6: frame effect of `unregister_plugin(A)` — afterwards no rule or
command owned by `A` answers any lookup, and no entry for `A` appears in
`get_triggered_rules`; every lookup and every triggered entry of any other
plugin `B` is exactly as before; and unregistering a plugin that owns no
registered rule leaves the registry unchanged (and cannot fail, the
operation being total). -/
theorem unregister_plugin_frame (m : Manager) (A B : String) (hAB : A ≠ B) :
    (∀ lbl, (m.unregisterPlugin A).hasRule lbl (some A) = false) ∧
    (∀ name fa, (m.unregisterPlugin A).hasCommand name fa (some A) = false) ∧
    (∀ botNick pre e,
      e ∈ (m.unregisterPlugin A).getTriggeredRules botNick pre →
        e.rule.plugin ≠ some A) ∧
    (∀ lbl, (m.unregisterPlugin A).hasRule lbl (some B)
        = m.hasRule lbl (some B)) ∧
    (∀ name fa, (m.unregisterPlugin A).hasCommand name fa (some B)
        = m.hasCommand name fa (some B)) ∧
    (∀ botNick pre,
      pluginEntries ((m.unregisterPlugin A).getTriggeredRules botNick pre) B
        = pluginEntries (m.getTriggeredRules botNick pre) B) ∧
    ((∀ r ∈ m.allRules, r.plugin ≠ some A) → m.unregisterPlugin A = m) := by
  refine ⟨?_, ?_, ?_, ?_, ?_, ?_, ?_⟩
  · intro lbl
    apply List.any_eq_false.mpr
    intro r hr
    have hmem := List.mem_filter.mp hr
    have hnA : (r.plugin == some A) = false := by
      have := hmem.2
      simpa using this
    simp [pluginOk, hnA]
  · intro name fa
    apply List.any_eq_false.mpr
    intro r hr
    have hmem := List.mem_filter.mp hr
    have hnA : (r.plugin == some A) = false := by
      have := hmem.2
      simpa using this
    simp [pluginOk, hnA]
  · intro botNick pre e he
    have hbase := mem_sortByScale _ _ he
    have hrule := mem_baseTriggered_rule _ _ _ _ hbase
    rw [allRules_unregister] at hrule
    have := (List.mem_filter.mp hrule).2
    simp at this
    simpa using this
  · intro lbl
    unfold Manager.hasRule Manager.unregisterPlugin
    apply any_filter_of_imp
    intro r hq
    have hpB : r.plugin = some B := by
      simp [pluginOk] at hq
      exact hq.2
    simp [hpB]
    exact Ne.symm hAB
  · intro name fa
    unfold Manager.hasCommand Manager.unregisterPlugin
    apply any_filter_of_imp
    intro r hq
    have hpB : r.plugin = some B := by
      simp [pluginOk] at hq
      exact hq.2
    simp [hpB]
    exact Ne.symm hAB
  · intro botNick pre
    have h1 : (m.unregisterPlugin A).getTriggeredRules botNick pre
        = sortByScale ((m.unregisterPlugin A).baseTriggered botNick pre) := rfl
    have h2 : m.getTriggeredRules botNick pre
        = sortByScale (m.baseTriggered botNick pre) := rfl
    rw [h1, h2]
    unfold pluginEntries
    rw [filter_sortByScale, filter_sortByScale]
    congr 1
    have hb : (m.unregisterPlugin A).baseTriggered botNick pre
        = (m.allRules.filter (fun r => !(r.plugin == some A))).flatMap
            (entryOf botNick pre) := by
      unfold Manager.baseTriggered
      rw [allRules_unregister]
    rw [hb]
    exact pluginEntries_flatMap_filter botNick pre A B hAB m.allRules
  · intro hnone
    have hfilter : ∀ l : List Rule, (∀ r ∈ l, r.plugin ≠ some A) →
        l.filter (fun r => !(r.plugin == some A)) = l := by
      intro l hl
      apply List.filter_eq_self.mpr
      intro r hr
      simp [hl r hr]
    cases m with
    | mk rs cs ns as us =>
      have hsub : ∀ r, (r ∈ rs ∨ r ∈ cs ∨ r ∈ ns ∨ r ∈ as ∨ r ∈ us) →
          r.plugin ≠ some A := by
        intro r hr
        apply hnone
        simp only [Manager.allRules, List.mem_append]
        tauto
      simp only [Manager.unregisterPlugin, Manager.mk.injEq]
      refine ⟨?_, ?_, ?_, ?_, ?_⟩
      · exact hfilter rs (fun r hr => hsub r (Or.inl hr))
      · exact hfilter cs (fun r hr => hsub r (Or.inr (Or.inl hr)))
      · exact hfilter ns (fun r hr => hsub r (Or.inr (Or.inr (Or.inl hr))))
      · exact hfilter as (fun r hr => hsub r (Or.inr (Or.inr (Or.inr (Or.inl hr)))))
      · exact hfilter us (fun r hr => hsub r (Or.inr (Or.inr (Or.inr (Or.inr hr)))))

/-- A catch-all rule `the_rule` owned by `plugin_a`. -/
def aRule : Rule :=
  { defaultRule with
    plugin := some "plugin_a"
    label := some "the_rule"
    matchers := [fun t => some ⟨t, []⟩] }

/-- A catch-all rule `the_rule` owned by `plugin_b`. -/
def bRule : Rule :=
  { defaultRule with
    plugin := some "plugin_b"
    label := some "the_rule"
    matchers := [fun t => some ⟨t, []⟩] }

/-- A registry holding `the_rule` and command `hello` under both
`plugin_a` and `plugin_b`, mirroring `test_manager_unregister_plugin`. -/
def twoPluginManager : Manager :=
  (((Manager.empty.register aRule).registerCommand
      (mkCommand "hello" "." [] (some "plugin_a"))).register
      bRule).registerCommand (mkCommand "hello" "." [] (some "plugin_b"))

/-- Witness for C6: after unregistering `plugin_a` from the two-plugin
registry, `the_rule` no longer answers for `plugin_a` but still answers
exactly as before for `plugin_b`, and `hello` no longer answers for
`plugin_a`. -/
theorem unregister_plugin_frame_witness :
    (twoPluginManager.unregisterPlugin "plugin_a").hasRule "the_rule"
        (some "plugin_a") = false ∧
    (twoPluginManager.unregisterPlugin "plugin_a").hasCommand "hello" false
        (some "plugin_a") = false ∧
    (twoPluginManager.unregisterPlugin "plugin_a").hasRule "the_rule"
        (some "plugin_b")
      = twoPluginManager.hasRule "the_rule" (some "plugin_b") :=
  ⟨(unregister_plugin_frame twoPluginManager "plugin_a" "plugin_b"
      (by decide)).1 "the_rule",
   (unregister_plugin_frame twoPluginManager "plugin_a" "plugin_b"
      (by decide)).2.1 "hello" false,
   (unregister_plugin_frame twoPluginManager "plugin_a" "plugin_b"
      (by decide)).2.2.2.1 "the_rule"⟩

/-! ## The dispatcher boundary -/

theorem callRule_no_interrupt (s : Settings) (r : Rule) (tr : Trig)
    (now : Int)
    (h : ∀ hh : Handler, r.handler = some hh → hh tr ≠ .kbInterrupt) :
    callRule s r tr now ≠ .interrupt := by
  unfold callRule
  split_ifs
  · simp
  · simp
  · cases hh : r.handler with
    | none =>
      unfold Rule.execute
      rw [hh]
      simp
    | some f =>
      unfold Rule.execute
      rw [hh]
      cases ho : f tr with
      | value noLimit =>
        cases noLimit <;> simp [ho]
      | raised => simp [ho]
      | kbInterrupt => exact absurd ho (h f hh)

/-- When no inline entry can raise a `KeyboardInterrupt`, the dispatch loop
runs to the end: the suppressed list is exactly the blocklist-gated
entries of the input (in order), and every other entry is offered
execution (in order), with its `call_rule` result. -/
theorem dispatchLoop_fine (s : Settings) (blocked : Bool) (tr : Trig)
    (now : Int) (entries : List RuleEntry)
    (h : ∀ e ∈ entries, ∀ hh : Handler, e.rule.handler = some hh →
      hh tr ≠ .kbInterrupt) :
    dispatchLoop s blocked tr now entries
      = .fine
          ((entries.filter
              (fun e => !suppressedByBlocklist blocked tr e)).map
            (fun e => ⟨e, e.rule.threaded, callRule s e.rule tr now⟩))
          (entries.filter (suppressedByBlocklist blocked tr)) := by
  induction entries with
  | nil => rfl
  | cons e es ih =>
    have ihe := ih (fun x hx => h x (by simp [hx]))
    by_cases hb : suppressedByBlocklist blocked tr e = true
    · simp only [dispatchLoop, hb, if_true, ihe, List.filter_cons,
        Bool.not_true]
      simp [hb]
    · have hb' : suppressedByBlocklist blocked tr e = false := by
        simpa using hb
      have hni : callRule s e.rule tr now ≠ .interrupt :=
        callRule_no_interrupt s e.rule tr now (h e (by simp))
      simp only [dispatchLoop, hb', Bool.false_eq_true, if_false, ihe]
      cases hres : callRule s e.rule tr now with
      | interrupt => exact absurd hres hni
      | skippedRateLimit =>
        cases ht : e.rule.threaded <;>
          simp [List.filter_cons, hb', ht, hres]
      | skippedChannelConfig =>
        cases ht : e.rule.threaded <;>
          simp [List.filter_cons, hb', ht, hres]
      | completed r2 =>
        cases ht : e.rule.threaded <;>
          simp [List.filter_cons, hb', ht, hres]
      | errorLogged =>
        cases ht : e.rule.threaded <;>
          simp [List.filter_cons, hb', ht, hres]

/-- C7: dispatching a blocked event — every triggered rule that is gated by
the blocklist (not unblockable, sender not an admin) is recorded as
suppressed, in order, and is not offered execution; the dispatch continues
to the end: every remaining matched rule is still offered execution, and
the dispatch completes normally (it is never aborted as a whole). -/
theorem dispatch_blocked_suppress_continue
    (b : BotState) (pre : PreTrigger) (now : Int)
    (hreplay : replayDropped b pre = false)
    (hno : ∀ r ∈ b.mgr.allRules, ∀ hh : Handler, r.handler = some hh →
      hh (mkTrigger b.settings pre (lookupAccount b pre.nick)) ≠
        .kbInterrupt) :
    dispatch b pre now
      = .done
          (((b.mgr.getTriggeredRules b.botNick pre).filter
              (fun e => !suppressedByBlocklist (eventBlocked b.settings pre)
                (mkTrigger b.settings pre (lookupAccount b pre.nick)) e)).map
            (fun e => ⟨e, e.rule.threaded,
              callRule b.settings e.rule
                (mkTrigger b.settings pre (lookupAccount b pre.nick)) now⟩))
          ((b.mgr.getTriggeredRules b.botNick pre).filter
            (suppressedByBlocklist (eventBlocked b.settings pre)
              (mkTrigger b.settings pre (lookupAccount b pre.nick)))) := by
  unfold dispatch
  rw [if_neg (by simp [hreplay])]
  rw [dispatchLoop_fine b.settings (eventBlocked b.settings pre)
    (mkTrigger b.settings pre (lookupAccount b pre.nick)) now
    (b.mgr.getTriggeredRules b.botNick pre)
    (fun e he => hno e.rule
      (mem_baseTriggered_rule b.mgr b.botNick pre e (mem_sortByScale _ _ he)))]

/-- A blockable catch-all rule with no handler bound. -/
def wBlockable : Rule :=
  { defaultRule with
    plugin := some "p"
    label := some "r1"
    matchers := [fun t => some ⟨t, []⟩] }

/-- An unblockable catch-all rule with no handler bound. -/
def wUnblockable : Rule :=
  { defaultRule with
    plugin := some "p"
    label := some "r2"
    unblockable := true
    matchers := [fun t => some ⟨t, []⟩] }

/-- A bot whose settings blocklist the nick `Foo`, with one blockable and
one unblockable rule registered. -/
def blockedBot : BotState where
  botNick := "TestBot"
  settings :=
    { admins := []
      nickBlocks := [fun n => n == "Foo"]
      hostBlocks := []
      channelCfgs := [] }
  mgr := (Manager.empty.register wBlockable).register wUnblockable
  channels := []
  users := []

/-- Witness for C7: dispatching the blocklisted `Foo`'s message completes
as `.done`, suppressing the blockable rule's entry and still offering the
unblockable rule's entry. -/
theorem dispatch_blocked_suppress_continue_witness :
    dispatch blockedBot helloPre 0
      = .done
          (((blockedBot.mgr.getTriggeredRules "TestBot" helloPre).filter
              (fun e => !suppressedByBlocklist
                (eventBlocked blockedBot.settings helloPre)
                (mkTrigger blockedBot.settings helloPre
                  (lookupAccount blockedBot "Foo")) e)).map
            (fun e => ⟨e, e.rule.threaded,
              callRule blockedBot.settings e.rule
                (mkTrigger blockedBot.settings helloPre
                  (lookupAccount blockedBot "Foo")) 0⟩))
          ((blockedBot.mgr.getTriggeredRules "TestBot" helloPre).filter
            (suppressedByBlocklist (eventBlocked blockedBot.settings helloPre)
              (mkTrigger blockedBot.settings helloPre
                (lookupAccount blockedBot "Foo")))) :=
  dispatch_blocked_suppress_continue blockedBot helloPre 0 rfl
    (by
      intro r hr hh hhh
      have : r = wBlockable ∨ r = wUnblockable := by
        simpa [blockedBot, Manager.allRules, Manager.register,
          Manager.empty] using hr
      rcases this with h | h <;> subst h <;>
        simp [wBlockable, wUnblockable, defaultRule] at hhh)

/-- C8: handler exceptions are confined to the dispatcher boundary — for
every rule whose handler does not request a keyboard interrupt, `call_rule`
never re-raises (its result is never the re-raised interrupt); a handler
that raises an exception yields a caught-and-logged result (or the rule was
skipped by gating before execution); and the dispatch loop over any
triggered entries whose handlers do not request a keyboard interrupt
completes normally with every non-suppressed entry offered execution —
one rule's exception never prevents the other matched rules from
running. -/
theorem handler_exceptions_isolated :
    (∀ (s : Settings) (r : Rule) (tr : Trig) (now : Int),
      (∀ hh : Handler, r.handler = some hh → hh tr ≠ .kbInterrupt) →
      callRule s r tr now ≠ .interrupt) ∧
    (∀ (s : Settings) (r : Rule) (tr : Trig) (now : Int) (hh : Handler),
      r.handler = some hh → hh tr = .raised →
      (callRule s r tr now = .errorLogged ∨
       callRule s r tr now = .skippedRateLimit ∨
       callRule s r tr now = .skippedChannelConfig)) ∧
    (∀ (s : Settings) (blocked : Bool) (tr : Trig) (now : Int)
        (entries : List RuleEntry),
      (∀ e ∈ entries, ∀ hh : Handler, e.rule.handler = some hh →
        hh tr ≠ .kbInterrupt) →
      ∃ offered suppressed,
        dispatchLoop s blocked tr now entries = .fine offered suppressed ∧
        offered.map OfferRec.entry
          = entries.filter (fun e => !suppressedByBlocklist blocked tr e)) := by
  refine ⟨callRule_no_interrupt, ?_, ?_⟩
  · intro s r tr now hh hhandler hraised
    unfold callRule
    split_ifs
    · right; left; rfl
    · right; right; rfl
    · left
      unfold Rule.execute
      rw [hhandler]
      simp [hraised]
  · intro s blocked tr now entries h
    refine ⟨_, _, dispatchLoop_fine s blocked tr now entries h, ?_⟩
    rw [List.map_map]
    have : ∀ e ∈ entries.filter
        (fun e => !suppressedByBlocklist blocked tr e),
        (OfferRec.entry ∘ fun e =>
          OfferRec.mk e e.rule.threaded (callRule s e.rule tr now)) e = e :=
      fun e _ => rfl
    rw [List.map_congr_left this]
    simp

/-- A catch-all rule whose handler raises an exception. -/
def raisingRule : Rule :=
  { defaultRule with
    plugin := some "p"
    label := some "bad"
    matchers := [fun t => some ⟨t, []⟩]
    handler := some (fun _ => .raised) }

/-- Witness for C8: a concrete rule whose handler raises is caught and
logged by `call_rule` (non-admin user, no gating configured), and the
dispatch loop over its entry and a second well-behaved entry completes with
both offered. -/
theorem handler_exceptions_isolated_witness :
    (callRule ⟨[], [], [], []⟩ raisingRule fooTrig 0 = .errorLogged ∨
     callRule ⟨[], [], [], []⟩ raisingRule fooTrig 0 = .skippedRateLimit ∨
     callRule ⟨[], [], [], []⟩ raisingRule fooTrig 0 = .skippedChannelConfig) ∧
    (∃ offered suppressed,
      dispatchLoop ⟨[], [], [], []⟩ false fooTrig 0
          [⟨raisingRule, 0, ⟨[], []⟩⟩, ⟨limitedRule, 0, ⟨[], []⟩⟩]
        = .fine offered suppressed ∧
      offered.map OfferRec.entry
        = [⟨raisingRule, 0, ⟨[], []⟩⟩,
           (⟨limitedRule, 0, ⟨[], []⟩⟩ : RuleEntry)].filter
            (fun e => !suppressedByBlocklist false fooTrig e)) :=
  ⟨handler_exceptions_isolated.2.1 ⟨[], [], [], []⟩ raisingRule fooTrig 0
      (fun _ => .raised) rfl rfl,
   handler_exceptions_isolated.2.2 ⟨[], [], [], []⟩ false fooTrig 0
      [⟨raisingRule, 0, ⟨[], []⟩⟩, ⟨limitedRule, 0, ⟨[], []⟩⟩]
      (by
        intro e he hh hhh
        have : e = (⟨raisingRule, 0, ⟨[], []⟩⟩ : RuleEntry) ∨
            e = (⟨limitedRule, 0, ⟨[], []⟩⟩ : RuleEntry) := by
          simpa using he
        rcases this with h | h <;> subst h <;>
          simp [raisingRule, limitedRule, defaultRule] at hhh <;>
          simp [← hhh])⟩

/-! ## When the ledger is and is not mutated (`Sopel.call` and
`Rule.execute`) -/

/-- An ungated legacy callable whose body raises an exception. -/
def crashFunc : LegacyFunc :=
  ⟨0, "boom", "p", false, 20, 20, 20, fun _ => .raises⟩

/-- Counterexample to C5 as stated: in `Sopel.call`, an execution whose
handler raises an exception does NOT leave the ledger unchanged — the
exception is caught (`exit_code = None`), `None != NOLIMIT`, and all three
`_times` entries (user, global, channel) are written.  Concretely: from an
empty ledger, calling the raising `crashFunc` on `Foo`'s channel message at
time 5 records timestamp 5 for the user key. -/
theorem call_exception_updates_ledger_cex :
    crashFunc.behavior fooTrig = LegacyOutcome.raises ∧
    (call ⟨[], [], [], []⟩ "TestBot" [] crashFunc fooTrig 5).2
      = .ran none ∧
    (call ⟨[], [], [], []⟩ "TestBot" [] crashFunc fooTrig 5).1 ≠ [] ∧
    timesGet (call ⟨[], [], [], []⟩ "TestBot" [] crashFunc fooTrig 5).1
      ("Foo", 0) = some 5 := by
  refine ⟨rfl, rfl, ?_, rfl⟩
  decide

/-- C5 (amended): the ledgers are left unchanged exactly by skipped and
sentinel-returning executions — an execution skipped by the rate-limit or
channel-disable gates leaves the `_times` ledger unchanged, as does a
handler returning the `NOLIMIT` sentinel; but in `Sopel.call` a handler
exception is caught and treated as a non-sentinel completion, so it
UPDATES every applicable ledger entry, exactly like a normal return; on
the per-rule path, `Rule.execute` propagates the handler exception before
its ledger update, so there the per-rule ledger is unchanged. -/
theorem ledger_mutation_policy :
    (∀ (s : Settings) (bn : String) (times : Times) (f : LegacyFunc)
        (tr : Trig) (now : Int),
      (call s bn times f tr now).2 = .limited →
        (call s bn times f tr now).1 = times) ∧
    (∀ (s : Settings) (bn : String) (times : Times) (f : LegacyFunc)
        (tr : Trig) (now : Int),
      (call s bn times f tr now).2 = .disabled →
        (call s bn times f tr now).1 = times) ∧
    (∀ (s : Settings) (bn : String) (times : Times) (f : LegacyFunc)
        (tr : Trig) (now : Int),
      (call s bn times f tr now).2 = .ran (some NOLIMIT) →
        (call s bn times f tr now).1 = times) ∧
    (∀ (s : Settings) (bn : String) (times : Times) (f : LegacyFunc)
        (tr : Trig) (now : Int) (c : Option Int),
      (call s bn times f tr now).2 = .ran c → c ≠ some NOLIMIT →
        (call s bn times f tr now).1 = legacyUpdate times bn f tr now) ∧
    (∀ (s : Settings) (bn : String) (times : Times) (f : LegacyFunc)
        (tr : Trig) (now : Int),
      f.behavior tr = .raises →
      legacyGated times bn f tr now = false →
      legacyDisabled s f tr = false →
        (call s bn times f tr now).2 = .ran none ∧
        (call s bn times f tr now).1 = legacyUpdate times bn f tr now) ∧
    (∀ (r : Rule) (tr : Trig) (now : Int) (hh : Handler),
      r.handler = some hh → hh tr = .raised →
        r.execute tr now = .excRaised r) := by
  refine ⟨?_, ?_, ?_, ?_, ?_, ?_⟩
  · intro s bn times f tr now h
    unfold call at h ⊢
    split_ifs at h ⊢
    all_goals simp_all
  · intro s bn times f tr now h
    unfold call at h ⊢
    split_ifs at h ⊢
    all_goals simp_all
  · intro s bn times f tr now h
    unfold call at h ⊢
    split_ifs at h ⊢ with h1 h2 h3
    all_goals simp_all
  · intro s bn times f tr now c h hc
    unfold call at h ⊢
    split_ifs at h ⊢ with h1 h2 h3 <;> simp_all
  · intro s bn times f tr now hraises hgate hdis
    have hexit : legacyExitCode f tr = none := by
      unfold legacyExitCode
      rw [hraises]
    unfold call
    rw [hgate, hdis]
    simp [hexit, NOLIMIT]
  · intro r tr now hh hhandler hraised
    unfold Rule.execute
    rw [hhandler]
    simp [hraised]

/-- An ungated legacy callable returning the `NOLIMIT` sentinel. -/
def noLimitFunc : LegacyFunc :=
  ⟨1, "quiet", "p", false, 20, 20, 20, fun _ => .returns (some NOLIMIT)⟩

/-- Witness for the amended C5: the sentinel-returning callable leaves the
empty ledger empty, and the exception-raising callable (ungated, no channel
configuration) updates the ledger exactly like a normal return. -/
theorem ledger_mutation_policy_witness :
    (call ⟨[], [], [], []⟩ "TestBot" [] noLimitFunc fooTrig 5).1 = [] ∧
    ((call ⟨[], [], [], []⟩ "TestBot" [] crashFunc fooTrig 5).2
        = .ran none ∧
     (call ⟨[], [], [], []⟩ "TestBot" [] crashFunc fooTrig 5).1
        = legacyUpdate [] "TestBot" crashFunc fooTrig 5) ∧
    (raisingRule.execute fooTrig 5 = .excRaised raisingRule) :=
  ⟨ledger_mutation_policy.2.2.1 ⟨[], [], [], []⟩ "TestBot" [] noLimitFunc
      fooTrig 5 rfl,
   ledger_mutation_policy.2.2.2.2.1 ⟨[], [], [], []⟩ "TestBot" [] crashFunc
      fooTrig 5 rfl (by decide) (by decide),
   ledger_mutation_policy.2.2.2.2.2 raisingRule fooTrig 5 (fun _ => .raised)
      rfl rfl⟩

/-! ## The capture-group contract of the command grammar -/

/-- Either empty, or starting with a non-whitespace character. -/
def noLeadWS (cs : List Char) : Prop :=
  cs = [] ∨ ∃ c t, cs = c :: t ∧ isWS c = false

/-- Either empty, or starting with a whitespace character. -/
def leadWS (cs : List Char) : Prop :=
  cs = [] ∨ ∃ c t, cs = c :: t ∧ isWS c = true

theorem dropWhile_shape (p : Char → Bool) (l : List Char) :
    l.dropWhile p = [] ∨
      ∃ c t, l.dropWhile p = c :: t ∧ p c = false := by
  induction l with
  | nil => left; rfl
  | cons c cs ih =>
    cases hp : p c with
    | true =>
      rw [List.dropWhile_cons_of_pos hp]
      exact ih
    | false =>
      right
      exact ⟨c, cs, List.dropWhile_cons_of_neg (by simp [hp]), hp⟩

theorem wordsOf_skipWS (l : List Char) :
    wordsOf (l.dropWhile isWS) = wordsOf l := by
  induction l with
  | nil => rfl
  | cons c cs ih =>
    cases hp : isWS c with
    | true =>
      rw [List.dropWhile_cons_of_pos hp, ih]
      conv_rhs => rw [wordsOf]
      rw [if_pos hp]
    | false =>
      rw [List.dropWhile_cons_of_neg (by simp [hp])]

theorem wordsOf_step (c : Char) (t : List Char) (h : isWS c = false) :
    wordsOf (c :: t)
      = ((c :: t).takeWhile (fun x => !isWS x))
          :: wordsOf ((c :: t).dropWhile (fun x => !isWS x)) := by
  conv_lhs => rw [wordsOf]
  rw [if_neg (by simp [h])]
  rw [List.dropWhile_cons_of_pos (by simp [h])]

theorem wordsOf_nil : wordsOf [] = [] := by
  rw [wordsOf]

theorem scanTok_words (cs : List Char) (h : noLeadWS cs) :
    scanTok cs = ((wordsOf cs).head?, cs.dropWhile (fun x => !isWS x)) ∧
    wordsOf (cs.dropWhile (fun x => !isWS x)) = (wordsOf cs).tail ∧
    leadWS (cs.dropWhile (fun x => !isWS x)) := by
  rcases h with rfl | ⟨c, t, rfl, hc⟩
  · refine ⟨?_, ?_, Or.inl rfl⟩
    · simp [scanTok, wordsOf_nil]
    · simp [wordsOf_nil]
  · rw [wordsOf_step c t hc]
    refine ⟨?_, by simp, ?_⟩
    · simp only [scanTok]
      rw [if_neg (by simp [hc])]
      simp
    · rcases dropWhile_shape (fun x => !isWS x) (c :: t) with hsh |
        ⟨c2, t2, hsh, hc2⟩
      · rw [hsh]; exact Or.inl rfl
      · rw [hsh]
        right
        exact ⟨c2, t2, rfl, by simpa using hc2⟩

theorem scanWSTok_words (cs : List Char) (h : leadWS cs) :
    ∃ r, scanWSTok cs = ((wordsOf cs).head?, r) ∧
      wordsOf r = (wordsOf cs).tail ∧ leadWS r := by
  rcases h with rfl | ⟨c, t, rfl, hc⟩
  · refine ⟨[], ?_, ?_, Or.inl rfl⟩
    · simp [scanWSTok, wordsOf_nil]
    · simp [wordsOf_nil]
  · have hwords : wordsOf ((c :: t).dropWhile isWS) = wordsOf (c :: t) :=
      wordsOf_skipWS (c :: t)
    rcases dropWhile_shape isWS (c :: t) with hsh | ⟨c2, t2, hsh, hc2⟩
    · have hnil : wordsOf (c :: t) = [] := by
        rw [← hwords, hsh, wordsOf_nil]
      refine ⟨c :: t, ?_, ?_, Or.inr ⟨c, t, rfl, hc⟩⟩
      · simp only [scanWSTok]
        rw [if_pos hc, hsh]
        simp [scanTok, hnil]
      · rw [hnil]
        rfl
    · have hW : wordsOf ((c :: t).dropWhile isWS)
          = ((c2 :: t2).takeWhile (fun x => !isWS x))
              :: wordsOf ((c2 :: t2).dropWhile (fun x => !isWS x)) := by
        rw [hsh]
        exact wordsOf_step c2 t2 hc2
      have hstep := scanTok_words ((c :: t).dropWhile isWS)
        (Or.inr ⟨c2, t2, hsh, hc2⟩)
      refine ⟨((c :: t).dropWhile isWS).dropWhile (fun x => !isWS x),
        ?_, ?_, hstep.2.2⟩
      · simp only [scanWSTok]
        rw [if_pos hc, hstep.1, ← hwords, hW]
        simp
      · rw [hstep.2.1, hwords]

theorem head?_getElem (l : List (List Char)) : l.head? = l[0]? := by
  cases l <;> simp

theorem tail_getElem (l : List (List Char)) (n : Nat) :
    l.tail[n]? = l[n + 1]? := by
  cases l <;> simp

/-- On a parameter area that starts with a non-whitespace character, the
sequential scan of `tailScan` captures exactly the first four
whitespace-delimited tokens as groups 3–6. -/
theorem tailScan_words (r : List Char) (h : noLeadWS r) :
    tailScan r
      = ⟨some r, (wordsOf r)[0]?, (wordsOf r)[1]?,
          (wordsOf r)[2]?, (wordsOf r)[3]?⟩ := by
  obtain ⟨hB1, hB2, hB3⟩ := scanTok_words r h
  obtain ⟨r2, hC1, hC2, hC3⟩ :=
    scanWSTok_words (r.dropWhile (fun x => !isWS x)) hB3
  obtain ⟨r3, hD1, hD2, hD3⟩ := scanWSTok_words r2 hC3
  obtain ⟨r4, hE1, hE2, hE3⟩ := scanWSTok_words r3 hD3
  unfold tailScan
  rw [hB1]
  simp only
  rw [hC1, hB2]
  simp only
  rw [hD1, hC2, hB2]
  simp only
  rw [hE1, hD2, hC2, hB2]
  simp only
  rw [head?_getElem, head?_getElem, head?_getElem, head?_getElem,
    tail_getElem, tail_getElem, tail_getElem,
    tail_getElem, tail_getElem, tail_getElem]

/-- The capture-group layout guaranteed by a successful parameter-tail
parse: either the tail holds no parameter (it is empty or whitespace only)
and groups 2–6 are all `none`, or group 2 is the full remainder of the
line after the command word and its separating whitespace, and groups 3–6
are the first four whitespace-delimited tokens of that remainder (absent
tokens are `none`). -/
def tailGroupsSpec (tailText : List Char) (g : TailGroups) : Prop :=
  (tailText.dropWhile isWS = [] ∧ g = ⟨none, none, none, none, none⟩) ∨
  (tailText.dropWhile isWS ≠ [] ∧
    g.g2 = some (tailText.dropWhile isWS) ∧
    g.g3 = (wordsOf (tailText.dropWhile isWS))[0]? ∧
    g.g4 = (wordsOf (tailText.dropWhile isWS))[1]? ∧
    g.g5 = (wordsOf (tailText.dropWhile isWS))[2]? ∧
    g.g6 = (wordsOf (tailText.dropWhile isWS))[3]?)

theorem parseTail_spec (tailText : List Char) (g : TailGroups)
    (h : parseTail tailText = some g) :
    leadWS tailText ∧ tailGroupsSpec tailText g := by
  cases tailText with
  | nil =>
    simp only [parseTail, Option.some.injEq] at h
    exact ⟨Or.inl rfl, Or.inl ⟨rfl, h.symm⟩⟩
  | cons c rest =>
    simp only [parseTail] at h
    by_cases hc : isWS c = true
    · rw [if_pos hc] at h
      by_cases hemp : (List.dropWhile isWS (c :: rest)).isEmpty = true
      · rw [if_pos hemp] at h
        simp only [Option.some.injEq] at h
        refine ⟨Or.inr ⟨c, rest, rfl, hc⟩, Or.inl ⟨?_, h.symm⟩⟩
        simpa using hemp
      · rw [if_neg hemp] at h
        simp only [Option.some.injEq] at h
        have hne : List.dropWhile isWS (c :: rest) ≠ [] := by
          simpa using hemp
        have hshape : noLeadWS (List.dropWhile isWS (c :: rest)) := by
          rcases dropWhile_shape isWS (c :: rest) with hsh |
            ⟨c2, t2, hsh, hc2⟩
          · exact absurd hsh hne
          · exact Or.inr ⟨c2, t2, hsh, hc2⟩
        rw [← h, tailScan_words _ hshape]
        exact ⟨Or.inr ⟨c, rest, rfl, hc⟩,
          Or.inr ⟨hne, rfl, rfl, rfl, rfl, rfl⟩⟩
    · rw [if_neg hc] at h
      cases h

/-- A successful command-name alternation match identifies a candidate
name: the matched word is the input's prefix of that candidate's length,
compared case-insensitively, and the rest of the input parses as a valid
parameter tail. -/
theorem tryCommandName_spec (cands : List (List Char)) (rest : List Char)
    (w : List Char) (g : TailGroups)
    (h : tryCommandName cands rest = some (w, g)) :
    ∃ c ∈ cands, startsWithCI rest c = true ∧
      w = rest.take c.length ∧
      parseTail (rest.drop c.length) = some g := by
  induction cands with
  | nil => cases h
  | cons c cs ih =>
    simp only [tryCommandName] at h
    by_cases hci : startsWithCI rest c = true
    · rw [if_pos hci] at h
      cases hpt : parseTail (rest.drop c.length) with
      | some g2 =>
        rw [hpt] at h
        simp only [Option.some.injEq, Prod.mk.injEq] at h
        exact ⟨c, by simp, hci, h.1.symm, by rw [hpt, h.2]⟩
      | none =>
        rw [hpt] at h
        rcases ih h with ⟨c2, hc2, hrest⟩
        exact ⟨c2, by simp [hc2], hrest⟩
    · rw [if_neg hci] at h
      rcases ih h with ⟨c2, hc2, hrest⟩
      exact ⟨c2, by simp [hc2], hrest⟩

theorem stripSep_suffix (cs : List Char) : List.IsSuffix (stripSep cs) cs := by
  cases cs with
  | nil => exact List.suffix_refl _
  | cons c rest =>
    show (if (c == ':' || c == ',') = true then rest else c :: rest) <:+ c :: rest
    split
    · exact ⟨[c], rfl⟩
    · exact List.suffix_refl _

theorem nickCmdBase_suffix (n : List Char) (text base : List Char)
    (h : nickCmdBase n text = some base) : List.IsSuffix base text := by
  unfold nickCmdBase at h
  rcases hstrip : stripSep (text.drop n.length) with _ | ⟨c, rest⟩
  · rw [hstrip] at h
    cases h
  · rw [hstrip] at h
    replace h : (if isWS c = true then some ((c :: rest).dropWhile isWS)
        else none) = some base := h
    by_cases hws : isWS c = true
    · rw [if_pos hws] at h
      simp only [Option.some.injEq] at h
      have h1 : List.IsSuffix base (c :: rest) := by
        rw [← h]
        exact List.dropWhile_suffix _
      have h2 : List.IsSuffix (c :: rest) (text.drop n.length) := by
        rw [← hstrip]
        exact stripSep_suffix _
      exact (h1.trans h2).trans (List.drop_suffix _ _)
    · rw [if_neg hws] at h
      cases h

theorem tryNickNames_spec (nicks cands : List (List Char))
    (text w : List Char) (g : TailGroups)
    (h : tryNickNames nicks cands text = some (w, g)) :
    ∃ base, List.IsSuffix base text ∧
      tryCommandName cands base = some (w, g) := by
  induction nicks with
  | nil => cases h
  | cons n ns ih =>
    simp only [tryNickNames] at h
    by_cases hn : startsWithCI text n = true
    · rw [if_pos hn] at h
      rcases hbase : nickCmdBase n text with _ | base
      · rw [hbase] at h
        exact ih h
      · rw [hbase] at h
        replace h : (match tryCommandName cands base with
            | some r => some r
            | none => tryNickNames ns cands text) = some (w, g) := h
        rcases htc : tryCommandName cands base with _ | r
        · rw [htc] at h
          exact ih h
        · rw [htc] at h
          replace h : r = (w, g) := by
            cases h
            rfl
          exact ⟨base, nickCmdBase_suffix n text base hbase, by rw [htc, h]⟩
    · rw [if_neg hn] at h
      exact ih h

/-- The shared capture-group contract of a successful command-grammar
match: the command word `w` answers (case-insensitively) to the command
name or one of its aliases; group 1 is `w`; groups 2–6 obey the parameter
tail layout of `tailGroupsSpec` for the text after the command word. -/
def commandMatchSpec (cands : List (List Char)) (w tailText : List Char)
    (g : TailGroups) (m : MatchRes) : Prop :=
  (∃ c ∈ cands, ciEq w c = true) ∧
  m.groups = commandGroups w g ∧
  tailGroupsSpec tailText g

theorem commandMatchSpec_of_try (cands : List (List Char))
    (base w : List Char) (g : TailGroups)
    (h : tryCommandName cands base = some (w, g)) :
    ∃ c ∈ cands, startsWithCI base c = true ∧ w = base.take c.length ∧
      base = w ++ base.drop c.length ∧ ciEq w c = true ∧
      leadWS (base.drop c.length) ∧
      tailGroupsSpec (base.drop c.length) g := by
  obtain ⟨c, hc, hci, hw, hpt⟩ := tryCommandName_spec cands base w g h
  obtain ⟨hlead, hspec⟩ := parseTail_spec _ _ hpt
  refine ⟨c, hc, hci, hw, ?_, ?_, hlead, hspec⟩
  · conv_lhs => rw [← List.take_append_drop c.length base, ← hw]
  · rw [hw]
    simpa [startsWithCI] using hci

/-- C4: every `Command`, `NickCommand`, and `ActionCommand` matcher exposes
the same fixed capture-group layout on a successful match — group 0 is the
whole line; group 1 is the matched command word (answering
case-insensitively to the declared name or one of its aliases); group 2 is
the full remainder of the line after the command word and its separating
whitespace (`none` when there are no parameters); and groups 3–6 are the
first four whitespace-delimited parameter tokens (`none` when absent) —
regardless of which specialization produced the matcher.  For `Command`
the line decomposes as prefix, command word, tail; for `NickCommand` the
command word and tail form a suffix of the line (after the nickname and
separator); for `ActionCommand` the line is exactly the command word and
tail. -/
theorem command_group_contract :
    (∀ (pfx name : List Char) (aliases : List (List Char))
        (text : List Char) (m : MatchRes),
      commandMatcher pfx name aliases text = some m →
      ∃ w tailText g,
        text = pfx ++ (w ++ tailText) ∧
        m.group0 = text ∧
        commandMatchSpec (name :: aliases) w tailText g m) ∧
    (∀ (nick name : List Char) (nickAliases aliases : List (List Char))
        (text : List Char) (m : MatchRes),
      nickCommandMatcher nick nickAliases name aliases text = some m →
      ∃ w tailText g,
        List.IsSuffix (w ++ tailText) text ∧
        m.group0 = text ∧
        commandMatchSpec (name :: aliases) w tailText g m) ∧
    (∀ (name : List Char) (aliases : List (List Char)) (text : List Char)
        (m : MatchRes),
      actionCommandMatcher name aliases text = some m →
      ∃ w tailText g,
        text = w ++ tailText ∧
        m.group0 = text ∧
        commandMatchSpec (name :: aliases) w tailText g m) := by
  refine ⟨?_, ?_, ?_⟩
  · intro pfx name aliases text m h
    unfold commandMatcher at h
    by_cases hpfx : startsWithEx text pfx = true
    · rw [if_pos hpfx] at h
      rcases htry : tryCommandName (name :: aliases) (text.drop pfx.length)
        with _ | ⟨w, g⟩
      · rw [htry] at h
        cases h
      · rw [htry] at h
        simp only [Option.some.injEq] at h
        obtain ⟨c, hc, _, _, hdecomp, hcieq, _, hspec⟩ :=
          commandMatchSpec_of_try _ _ _ _ htry
        refine ⟨w, (text.drop pfx.length).drop c.length, g, ?_, ?_,
          ⟨c, hc, hcieq⟩, ?_, hspec⟩
        · conv_lhs => rw [← List.take_append_drop pfx.length text]
          have h1 : text.take pfx.length = pfx := by
            simpa [startsWithEx] using hpfx
          rw [h1, ← hdecomp]
        · rw [← h]
        · rw [← h]
    · rw [if_neg hpfx] at h
      cases h
  · intro nick name nickAliases aliases text m h
    unfold nickCommandMatcher at h
    rcases htry : tryNickNames (nick :: nickAliases) (name :: aliases) text
      with _ | ⟨w, g⟩
    · rw [htry] at h
      cases h
    · rw [htry] at h
      simp only [Option.some.injEq] at h
      obtain ⟨base, hsuf, htc⟩ := tryNickNames_spec _ _ _ _ _ htry
      obtain ⟨c, hc, _, _, hdecomp, hcieq, _, hspec⟩ :=
        commandMatchSpec_of_try _ _ _ _ htc
      refine ⟨w, base.drop c.length, g, ?_, ?_, ⟨c, hc, hcieq⟩, ?_, hspec⟩
      · rw [← hdecomp]
        exact hsuf
      · rw [← h]
      · rw [← h]
  · intro name aliases text m h
    unfold actionCommandMatcher at h
    rcases htry : tryCommandName (name :: aliases) text with _ | ⟨w, g⟩
    · rw [htry] at h
      cases h
    · rw [htry] at h
      simp only [Option.some.injEq] at h
      obtain ⟨c, hc, _, _, hdecomp, hcieq, _, hspec⟩ :=
        commandMatchSpec_of_try _ _ _ _ htry
      exact ⟨w, text.drop c.length, g, hdecomp, by rw [← h],
        ⟨c, hc, hcieq⟩, by rw [← h], hspec⟩

/-- The expected match of `.hello world a b` for command `hello` with
prefix `.`: word `hello`, remainder `world a b`, tokens `world`, `a`, `b`
and an absent fourth token. -/
def cmdMatchW : MatchRes :=
  ⟨".hello world a b".toList,
    [some "hello".toList, some "world a b".toList, some "world".toList,
     some "a".toList, some "b".toList, none]⟩

/-- The expected match of `TestBot: hello` for nick-command `hello`: word
`hello`, no parameters. -/
def nickMatchW : MatchRes :=
  ⟨"TestBot: hello".toList,
    [some "hello".toList, none, none, none, none, none]⟩

/-- The expected match of the action text `hello` for action command
`hello`: word `hello`, no parameters. -/
def actMatchW : MatchRes :=
  ⟨"hello".toList, [some "hello".toList, none, none, none, none, none]⟩

/-- Witness for C4: the three concrete matchers succeed on concrete lines
with exactly the expected matches, and the group contract holds for each
of them. -/
theorem command_group_contract_witness :
    (commandMatcher ".".toList "hello".toList [] ".hello world a b".toList
        = some cmdMatchW ∧
     ∃ w tailText g,
       ".hello world a b".toList = ".".toList ++ (w ++ tailText) ∧
       cmdMatchW.group0 = ".hello world a b".toList ∧
       commandMatchSpec ["hello".toList] w tailText g cmdMatchW) ∧
    (nickCommandMatcher "TestBot".toList [] "hello".toList []
        "TestBot: hello".toList = some nickMatchW ∧
     ∃ w tailText g,
       List.IsSuffix (w ++ tailText) "TestBot: hello".toList ∧
       nickMatchW.group0 = "TestBot: hello".toList ∧
       commandMatchSpec ["hello".toList] w tailText g nickMatchW) ∧
    (actionCommandMatcher "hello".toList [] "hello".toList
        = some actMatchW ∧
     ∃ w tailText g,
       "hello".toList = w ++ tailText ∧
       actMatchW.group0 = "hello".toList ∧
       commandMatchSpec ["hello".toList] w tailText g actMatchW) :=
  ⟨⟨by decide, command_group_contract.1 ".".toList "hello".toList []
      ".hello world a b".toList cmdMatchW (by decide)⟩,
   ⟨by decide, command_group_contract.2.1 "TestBot".toList "hello".toList
      [] [] "TestBot: hello".toList nickMatchW (by decide)⟩,
   ⟨by decide, command_group_contract.2.2 "hello".toList []
      "hello".toList actMatchW (by decide)⟩⟩

end SopelSpec

